import Mathlib

/-!
Duplicate-file finder (`project_3/main.go`): embedding and verification.

The Go program walks a directory tree, hashes every file, groups the files by
digest and reports the reclaimable space.  This file embeds its functions
(`calculateMD5`, `scanDirectory`, `findDuplicates`, `printResults`,
`formatSize`, `main`) as Lean definitions and proves properties of them
(namespace `DupFinder`).  The in-memory task store of `project_4/main.go`
(`NewTaskStore`, `CreateTask`, `UpdateTask`, `DeleteTask`) is embedded in the
namespace `TaskApi`.

Conventions of the embedding:

* `int64` values are `Int`; arithmetic that Go performs in `int64` is wrapped
  explicitly by `wrapInt64`.  Go's `int` is taken to be 64 bits wide.
* `time.Time` is an `Int` (an instant on the time line); `Before` is `<`.
* A Go map is an association list with distinct keys.  The order in which
  `range` visits a map is not fixed by the language: it is a parameter
  (`MapOrder`), any permutation of the entries.
* `sort.Slice` is library code: it is a parameter (`SliceSort`) carrying the
  documented contract (the result is a permutation of the input, ordered with
  respect to `less` when `less` is a strict weak ordering, not necessarily
  stable).
* Console output is returned as structured data instead of being printed.
-/

namespace DupFinder

/-! ## Data model -/

/-- Go `FileInfo`: information stored for one scanned file. -/
structure FileInfo where
  Path : String
  Size : Int
  Hash : String
  Modified : Int
  deriving DecidableEq, Repr

/-- Go `DuplicateGroup`: files sharing one hash. -/
structure DuplicateGroup where
  Hash : String
  Size : Int
  Files : List FileInfo
  Count : Int
  deriving DecidableEq, Repr

/-! ## Library parameters -/

/-- Iteration order of `range` over a Go map: some permutation of the entries. -/
structure MapOrder where
  iterate : {β : Type} → List (String × β) → List (String × β)
  perm : ∀ {β : Type} (m : List (String × β)), (iterate m).Perm m

/-- A `less` function as `sort.Slice` requires it: a strict weak ordering. -/
structure StrictWeak {α : Type} (less : α → α → Bool) : Prop where
  irrefl : ∀ a, less a a = false
  trans : ∀ a b c, less a b = true → less b c = true → less a c = true
  incomp : ∀ a b c, less a b = false → less b c = false → less a c = false

/-- Contract of `sort.Slice(x, less)`: it permutes `x`, and when `less` is a
strict weak ordering no later element is less than an earlier one. -/
structure SliceSort where
  sort : {α : Type} → (α → α → Bool) → List α → List α
  perm : ∀ {α : Type} (less : α → α → Bool) (l : List α), (sort less l).Perm l
  sorted : ∀ {α : Type} (less : α → α → Bool), StrictWeak less →
    ∀ l : List α, (sort less l).Pairwise (fun a b => less b a = false)

/-- Map iteration in insertion order (one admissible order). -/
def insertionOrder : MapOrder where
  iterate := fun m => m
  perm := fun m => List.Perm.refl m

/-- Map iteration in reverse insertion order (another admissible order). -/
def reverseOrder : MapOrder where
  iterate := fun m => m.reverse
  perm := fun m => List.reverse_perm m

/-- Insert `a` into an ordered list, behind the elements that are less than
`a` and in front of all others. -/
def insertLess {α : Type} (less : α → α → Bool) (a : α) : List α → List α
  | [] => [a]
  | b :: l => if less b a then b :: insertLess less a l else a :: b :: l

/-- Insertion sort, the algorithm `sort.Slice` runs on short slices; elements
that are not ordered by `less` keep their order. -/
def insertionSortLess {α : Type} (less : α → α → Bool) : List α → List α
  | [] => []
  | a :: l => insertLess less a (insertionSortLess less l)

/-! ## Go map of slices -/

/-- Read `m[k]`: the stored slice, or the zero value (nil slice) when absent. -/
def mapGet {β : Type} (m : List (String × List β)) (k : String) : List β :=
  match m with
  | [] => []
  | (k', v) :: rest => if k' = k then v else mapGet rest k

/-- Assignment `m[k] = v`: replace the entry of `k`, or add a new entry. -/
def mapSet {β : Type} (m : List (String × List β)) (k : String) (v : List β) :
    List (String × List β) :=
  match m with
  | [] => [(k, v)]
  | (k', v') :: rest => if k' = k then (k', v) :: rest else (k', v') :: mapSet rest k v

/-! ## `findDuplicates` -/

/-- First loop of `findDuplicates`:
`hashGroups[file.Hash] = append(hashGroups[file.Hash], file)` for each file. -/
def groupByHash (files : List FileInfo) : List (String × List FileInfo) :=
  files.foldl (fun m file => mapSet m file.Hash (mapGet m file.Hash ++ [file])) []

/-- Second loop of `findDuplicates`: one `DuplicateGroup` for each map entry
with more than one file, in the order the entries are visited. -/
def collectGroups : List (String × List FileInfo) → List DuplicateGroup
  | [] => []
  | (hash, groupFiles) :: rest =>
    if h : groupFiles.length > 1 then
      { Hash := hash
        Size := (groupFiles.get ⟨0, Nat.lt_trans Nat.zero_lt_one h⟩).Size
        Files := groupFiles
        Count := (groupFiles.length : Int) } :: collectGroups rest
    else collectGroups rest

/-- The `less` function of the sort in `findDuplicates`:
`duplicates[i].Size > duplicates[j].Size`. -/
def sizeGreater (a b : DuplicateGroup) : Bool := decide (a.Size > b.Size)

/-- Go `findDuplicates`. -/
def findDuplicates (ord : MapOrder) (S : SliceSort) (files : List FileInfo) :
    List DuplicateGroup :=
  let hashGroups := groupByHash files
  let duplicates := collectGroups (ord.iterate hashGroups)
  S.sort sizeGreater duplicates

/-! ## `printResults` -/

/-- Two's-complement wrap-around of `int64` arithmetic. -/
def wrapInt64 (x : Int) : Int := (x + 2 ^ 63) % 2 ^ 64 - 2 ^ 63

/-- Mark printed in front of a file: `✅` (kept) or `🗑️` (can be removed). -/
inductive Status where
  | keep
  | removable
  deriving DecidableEq, Repr

/-- What `printResults` prints for one group: the header (hash, size), one
line for each file with its mark, and the space that can be freed. -/
structure GroupReport where
  index : Nat
  hash : String
  size : Int
  lines : List (Status × FileInfo)
  wastedSpace : Int
  deriving DecidableEq, Repr

/-- What `printResults` prints: the no-duplicates message, or the groups
followed by the statistics (number of groups, total space). -/
inductive Output where
  | noDuplicates
  | results (groups : List GroupReport) (groupCount : Nat) (totalWastedSpace : Int)
  deriving DecidableEq, Repr

/-- The `less` function of the sort in `printResults`:
`group.Files[a].Modified.Before(group.Files[b].Modified)`. -/
def modifiedBefore (a b : FileInfo) : Bool := decide (a.Modified < b.Modified)

/-- Inner loop of `printResults` over `group.Files`, from index `j`:
the file at index 0 is marked `keep`, every other one `removable`. -/
def markFiles : Nat → List FileInfo → List (Status × FileInfo)
  | _, [] => []
  | j, file :: rest =>
    ((if j = 0 then Status.keep else Status.removable), file) :: markFiles (j + 1) rest

/-- Body of the outer loop of `printResults` for the group at index `i`.
`group.Hash[:8]` panics when the hash has fewer than 8 bytes: `none`. -/
def reportGroup (S : SliceSort) (i : Nat) (group : DuplicateGroup) : Option GroupReport :=
  if group.Hash.utf8ByteSize < 8 then none
  else
    let files := S.sort modifiedBefore group.Files
    let wastedSpace := wrapInt64 (group.Size * wrapInt64 (group.Count - 1))
    some { index := i + 1
           hash := group.Hash
           size := group.Size
           lines := markFiles 0 files
           wastedSpace := wastedSpace }

/-- Outer loop of `printResults` from index `i` with the running total
`totalWastedSpace`; `none` when an iteration panics. -/
def reportLoop (S : SliceSort) :
    Nat → List DuplicateGroup → Int → Option (List GroupReport × Int)
  | _, [], totalWastedSpace => some ([], totalWastedSpace)
  | i, group :: rest, totalWastedSpace =>
    match reportGroup S i group with
    | none => none
    | some r =>
      match reportLoop S (i + 1) rest (wrapInt64 (totalWastedSpace + r.wastedSpace)) with
      | none => none
      | some (rs, total) => some (r :: rs, total)

/-- Go `printResults`; `none` stands for a run-time panic. -/
def printResults (S : SliceSort) (duplicates : List DuplicateGroup) (_showDetails : Bool) :
    Option Output :=
  if duplicates.length = 0 then some Output.noDuplicates
  else
    match reportLoop S 0 duplicates 0 with
    | none => none
    | some (groups, totalWastedSpace) =>
      some (Output.results groups duplicates.length totalWastedSpace)

/-- The total printed in the statistics, when statistics are printed. -/
def Output.total : Output → Option Int
  | Output.noDuplicates => none
  | Output.results _ _ totalWastedSpace => some totalWastedSpace

/-- The group reports printed (none for the no-duplicates message). -/
def Output.groups : Output → List GroupReport
  | Output.noDuplicates => []
  | Output.results groups _ _ => groups

/-! ## `calculateMD5` and `scanDirectory` -/

/-- Library functions used by the scanner. -/
structure StdLib where
  /-- Hex form of the MD5 digest of a byte sequence. -/
  md5hex : List Nat → String
  /-- Go `strings.ToLower`. -/
  toLower : String → String

/-- File type bits of an `os.FileMode`. -/
inductive FileKind where
  | regular
  | directory
  | symlink
  | device
  | namedPipe
  | socket
  deriving DecidableEq, Repr

/-- Go `os.FileInfo` as `filepath.Walk` obtains it (by `Lstat`). -/
structure OsFileInfo where
  kind : FileKind
  size : Int
  modTime : Int
  deriving DecidableEq, Repr

/-- Go `info.IsDir()`. -/
def OsFileInfo.IsDir (info : OsFileInfo) : Bool := decide (info.kind = FileKind.directory)

/-- Result of opening a path and reading it to the end. -/
inductive FileData where
  | openError (err : String)
  | readError (err : String)
  | content (bytes : List Nat)
  deriving DecidableEq, Repr

/-- One call of the walk function by `filepath.Walk`: the path, its
`os.FileInfo`, the error of the walk for this entry (if any), and what
reading the path yields. -/
structure WalkEntry where
  path : String
  info : OsFileInfo
  err : Option String
  data : FileData
  deriving DecidableEq, Repr

/-- Go `calculateMD5`: open the file, stream it through MD5, return the hex
digest; an open or a read failure is returned as the error. -/
def calculateMD5 (L : StdLib) (data : FileData) : Except String String :=
  match data with
  | FileData.openError err => Except.error err
  | FileData.readError err => Except.error err
  | FileData.content bytes => Except.ok (L.md5hex bytes)

/-- Go `os.IsPathSeparator` (Unix). -/
def isPathSeparator (c : Char) : Bool := decide (c = '/')

/-- Loop of `filepath.Ext` from the end of the path: the first argument is
the part of the path still to inspect, reversed; the second the suffix
already inspected. -/
def extLoop : List Char → List Char → List Char
  | [], _ => []
  | c :: before, suffix =>
    if isPathSeparator c then []
    else if c = '.' then c :: suffix
    else extLoop before (c :: suffix)

/-- Go `filepath.Ext`: the suffix beginning at the final dot in the final
element of the path, empty if there is no dot. -/
def filepathExt (path : String) : String := String.mk (extLoop path.data.reverse [])

/-- The filter loop of the walk function: is `ext` equal to the lower-cased
form of one of the allowed extensions? -/
def extFound (L : StdLib) (ext : String) : List String → Bool
  | [] => false
  | allowedExt :: rest => if ext = L.toLower allowedExt then true else extFound L ext rest

/-- The walk function passed to `filepath.Walk` in `scanDirectory`; the state
is the slice `files`, the result the new slice and the returned error. -/
def walkFn (L : StdLib) (extensions : List String) (files : List FileInfo) (e : WalkEntry) :
    List FileInfo × Option String :=
  match e.err with
  | some err => (files, some err)
  | none =>
    if e.info.IsDir then (files, none)
    else if extensions.length > 0 && !(extFound L (L.toLower (filepathExt e.path)) extensions) then
      (files, none)
    else
      match calculateMD5 L e.data with
      | Except.error _ => (files, none)
      | Except.ok hash =>
        (files ++ [{ Path := e.path, Size := e.info.size, Hash := hash,
                     Modified := e.info.modTime }], none)

/-- Go `filepath.Walk` seen from the walk function: it is called for each
entry in walk order (the root first; a directory before its content), and
the walk stops at the first call that returns an error, which `Walk`
returns. The list holds the entries `Walk` presents as long as the walk
function returns nil; the walk function of `scanDirectory` returns nil or
the error it was given, never `SkipDir`. -/
def filepathWalk {σ : Type} (fn : σ → WalkEntry → σ × Option String) :
    List WalkEntry → σ → σ × Option String
  | [], s => (s, none)
  | e :: rest, s =>
    match fn s e with
    | (s', some err) => (s', some err)
    | (s', none) => filepathWalk fn rest s'

/-- Go `scanDirectory`: the files found and the error of the walk. -/
def scanDirectory (L : StdLib) (entries : List WalkEntry) (extensions : List String) :
    List FileInfo × Option String :=
  filepathWalk (walkFn L extensions) entries []

/-! ## `main` -/

/-- Go `unicode.IsSpace`. -/
def isSpace (c : Char) : Bool :=
  let n := c.toNat
  (9 ≤ n && n ≤ 13) || n = 32 || n = 0x85 || n = 0xA0 || n = 0x1680 ||
  (0x2000 ≤ n && n ≤ 0x200A) || n = 0x2028 || n = 0x2029 || n = 0x202F ||
  n = 0x205F || n = 0x3000

/-- Drop the leading white space. -/
def trimLeft : List Char → List Char
  | [] => []
  | c :: cs => if isSpace c then trimLeft cs else c :: cs

/-- Go `strings.TrimSpace`. -/
def trimSpace (s : String) : String :=
  String.mk (trimLeft (trimLeft s.data).reverse).reverse

/-- Go `strings.HasPrefix(s, ".")`. -/
def hasDotPrefix (s : String) : Bool :=
  match s.data with
  | c :: _ => decide (c = '.')
  | [] => false

/-- Body of the normalisation loop of `main` for one extension: trim the
white space, put a dot in front unless there is one. -/
def normalizeExt (ext : String) : String :=
  let trimmed := trimSpace ext
  if !(hasDotPrefix trimmed) then "." ++ trimmed else trimmed

/-- The record `scanDirectory` appends for an entry hashed to `hash`. -/
def recordOf (e : WalkEntry) (hash : String) : FileInfo :=
  { Path := e.path, Size := e.info.size, Hash := hash, Modified := e.info.modTime }

/-- The extension filter of `scanDirectory` lets a path through: there is no
filter, or the lower-cased extension is the lower-cased form of a filter. -/
def allowedPath (L : StdLib) (extensions : List String) (path : String) : Prop :=
  extensions = [] ∨ ∃ a ∈ extensions, L.toLower (filepathExt path) = L.toLower a

instance (L : StdLib) (extensions : List String) (path : String) :
    Decidable (allowedPath L extensions path) := by
  unfold allowedPath
  infer_instance

/-- The data-model invariant of a duplicate group: `Count` is the number of
member files, at least 2, and the hash is a digest of at least 8 bytes (an
MD5 digest in hex has 32). -/
def wellFormedGroup (g : DuplicateGroup) : Prop :=
  g.Count = (g.Files.length : Int) ∧ 2 ≤ g.Count ∧ 8 ≤ g.Hash.utf8ByteSize

instance (g : DuplicateGroup) : Decidable (wellFormedGroup g) := by
  unfold wellFormedGroup
  infer_instance

/-! ## Instances of the library parameters and sample inputs -/

/-- An implementation of `sort.Slice`: insertion sort, with the proofs that
it meets the contract. -/
def insertionSlice : SliceSort where
  sort := fun less l => insertionSortLess less l
  perm := by
    intro α less l
    have hins : ∀ (a : α) (l : List α), (insertLess less a l).Perm (a :: l) := by
      intro a l
      induction l with
      | nil => exact List.Perm.refl _
      | cons b l ih =>
        unfold insertLess
        split
        · exact (List.Perm.cons b ih).trans (List.Perm.swap a b l)
        · exact List.Perm.refl _
    induction l with
    | nil => exact List.Perm.refl _
    | cons a l ih => exact (hins a _).trans (List.Perm.cons a ih)
  sorted := by
    intro α less hw l
    have hperm : ∀ (a : α) (l : List α), (insertLess less a l).Perm (a :: l) := by
      intro a l
      induction l with
      | nil => exact List.Perm.refl _
      | cons b l ih =>
        unfold insertLess
        split
        · exact (List.Perm.cons b ih).trans (List.Perm.swap a b l)
        · exact List.Perm.refl _
    have hins : ∀ (a : α) (l : List α), l.Pairwise (fun x y => less y x = false) →
        (insertLess less a l).Pairwise (fun x y => less y x = false) := by
      intro a l hl
      induction l with
      | nil => simp [insertLess]
      | cons b l ih =>
        rw [List.pairwise_cons] at hl
        unfold insertLess
        split
        · rename_i hba
          have hab : less a b = false := by
            cases h : less a b with
            | false => rfl
            | true =>
              have := hw.trans a b a h hba
              rw [hw.irrefl] at this
              cases this
          refine List.pairwise_cons.2 ⟨?_, ih hl.2⟩
          intro y hy
          rcases List.mem_cons.1 ((hperm a l).subset hy) with rfl | hy
          · exact hab
          · exact hl.1 y hy
        · rename_i hba
          have hba' : less b a = false := by simpa using hba
          refine List.pairwise_cons.2 ⟨?_, List.pairwise_cons.2 hl⟩
          intro y hy
          rcases List.mem_cons.1 hy with rfl | hy
          · exact hba'
          · exact hw.incomp y b a (hl.1 y hy) hba'
    induction l with
    | nil => simp [insertionSortLess]
    | cons a l ih => exact hins a _ ih

/-- Lower-casing of ASCII letters, which is what `strings.ToLower` does on
ASCII text. -/
def asciiLower (s : String) : String := String.mk (s.data.map Char.toLower)

/-- A stand-in for the MD5 hex digest in the concrete examples (the theorems
hold for every digest function): each byte becomes one letter. -/
def sampleDigest (bytes : List Nat) : String :=
  String.mk (bytes.map (fun b => Char.ofNat (97 + b % 26)))

/-- The library used in the concrete examples. -/
def sampleLib : StdLib := { md5hex := sampleDigest, toLower := asciiLower }

/-- Two files with one digest, the second one older. -/
def sampleGroup : DuplicateGroup :=
  { Hash := "900150983cd24fb0d6963f7d28e17f72"
    Size := 3
    Files := [{ Path := "new.txt", Size := 3, Hash := "900150983cd24fb0d6963f7d28e17f72",
                Modified := 20 },
              { Path := "old.txt", Size := 3, Hash := "900150983cd24fb0d6963f7d28e17f72",
                Modified := 10 }]
    Count := 2 }

/-- The two files of `sampleGroup` and, between them, a file with another
digest. -/
def sampleFiles : List FileInfo :=
  [{ Path := "new.txt", Size := 3, Hash := "900150983cd24fb0d6963f7d28e17f72",
     Modified := 20 },
   { Path := "other.txt", Size := 5, Hash := "d6d8d6b1b3d4cfd0e3e7b1e1c0a6b2aa",
     Modified := 15 },
   { Path := "old.txt", Size := 3, Hash := "900150983cd24fb0d6963f7d28e17f72",
     Modified := 10 }]

/-- Three files of 2^62 bytes with one digest. -/
def hugeGroup : DuplicateGroup :=
  { Hash := "d41d8cd98f00b204e9800998ecf8427e"
    Size := 2 ^ 62
    Files := [{ Path := "a", Size := 2 ^ 62, Hash := "d41d8cd98f00b204e9800998ecf8427e",
                Modified := 1 },
              { Path := "b", Size := 2 ^ 62, Hash := "d41d8cd98f00b204e9800998ecf8427e",
                Modified := 2 },
              { Path := "c", Size := 2 ^ 62, Hash := "d41d8cd98f00b204e9800998ecf8427e",
                Modified := 3 }]
    Count := 3 }

/-- An entry of the given kind, visited without walk error, that can be
opened and read to the end. -/
def readableEntry (kind : FileKind) (path : String) (size modTime : Int)
    (bytes : List Nat) : WalkEntry :=
  { path := path
    info := { kind := kind, size := size, modTime := modTime }
    err := none
    data := FileData.content bytes }

/-- A regular file with the content `abc`. -/
def abcFile (path : String) (modTime : Int) : WalkEntry :=
  { path := path, info := { kind := FileKind.regular, size := 3, modTime := modTime },
    err := none, data := FileData.content [97, 98, 99] }

/-- The directory entry of the root `tree`. -/
def treeDir : WalkEntry :=
  { path := "tree", info := { kind := FileKind.directory, size := 4096, modTime := 0 },
    err := none, data := FileData.readError "read tree: is a directory" }

/-- The walk of a tree with `a.txt`, `b.jpg` and `A.TXT`, all with the
content `abc`. -/
def mixedTree : List WalkEntry :=
  [treeDir, abcFile "tree/A.TXT" 3, abcFile "tree/a.txt" 1, abcFile "tree/b.jpg" 2]

/-- The walk of a tree with the regular file `data.bin` and the symbolic
link `link` to it: `Lstat` reports the link as a symbolic link (its size is
the length of the target name), opening it reads the target. -/
def linkTree : List WalkEntry :=
  [treeDir, abcFile "tree/data.bin" 1,
   { path := "tree/link", info := { kind := FileKind.symlink, size := 8, modTime := 2 },
     err := none, data := FileData.content [97, 98, 99] }]

/-- The walk of a tree with three files of content `abc` and, among them, a
file that cannot be opened. -/
def lockedTree : List WalkEntry :=
  [treeDir, abcFile "tree/one" 1,
   { path := "tree/locked", info := { kind := FileKind.regular, size := 3, modTime := 5 },
     err := none, data := FileData.openError "open tree/locked: permission denied" },
   abcFile "tree/three" 3, abcFile "tree/two" 2]

/-- A sub-directory that cannot be listed: the walk reports the error. -/
def privateDir : WalkEntry :=
  { path := "tree/private"
    info := { kind := FileKind.directory, size := 4096, modTime := 0 }
    err := some "open tree/private: permission denied"
    data := FileData.openError "open tree/private: permission denied" }

/-- Total size of the files `printResults` marks removable. -/
def removableBytes (out : Output) : Int :=
  (out.groups.map (fun r =>
    ((r.lines.filter (fun l => decide (l.1 = Status.removable))).map
      (fun l => l.2.Size)).sum)).sum

/-- Two pairs of duplicates of the same size. -/
def tieFiles : List FileInfo :=
  [{ Path := "a1", Size := 4, Hash := "aaaaaaaaaaaaaaaaaaaaaaaaaaaaaaaa", Modified := 1 },
   { Path := "b1", Size := 4, Hash := "bbbbbbbbbbbbbbbbbbbbbbbbbbbbbbbb", Modified := 2 },
   { Path := "a2", Size := 4, Hash := "aaaaaaaaaaaaaaaaaaaaaaaaaaaaaaaa", Modified := 3 },
   { Path := "b2", Size := 4, Hash := "bbbbbbbbbbbbbbbbbbbbbbbbbbbbbbbb", Modified := 4 }]

/-- Two pairs of duplicates of different sizes, 1 byte and 100 bytes; the
small pair comes first in the input. -/
def twoSizeFiles : List FileInfo :=
  [{ Path := "s1", Size := 1, Hash := "cccccccccccccccccccccccccccccccc", Modified := 1 },
   { Path := "l1", Size := 100, Hash := "dddddddddddddddddddddddddddddddd", Modified := 2 },
   { Path := "s2", Size := 1, Hash := "cccccccccccccccccccccccccccccccc", Modified := 3 },
   { Path := "l2", Size := 100, Hash := "dddddddddddddddddddddddddddddddd", Modified := 4 }]

/-- Three files of 10 bytes with one digest and two files of 7 bytes with
another, and a file of 5 bytes on its own. -/
def reclaimFiles : List FileInfo :=
  [{ Path := "x1", Size := 10, Hash := "eeeeeeeeeeeeeeeeeeeeeeeeeeeeeeee", Modified := 3 },
   { Path := "y1", Size := 7, Hash := "ffffffffffffffffffffffffffffffff", Modified := 9 },
   { Path := "x2", Size := 10, Hash := "eeeeeeeeeeeeeeeeeeeeeeeeeeeeeeee", Modified := 1 },
   { Path := "z1", Size := 5, Hash := "00000000000000000000000000000000", Modified := 4 },
   { Path := "y2", Size := 7, Hash := "ffffffffffffffffffffffffffffffff", Modified := 8 },
   { Path := "x3", Size := 10, Hash := "eeeeeeeeeeeeeeeeeeeeeeeeeeeeeeee", Modified := 2 }]

/-! ## `formatSize` -/

/-- What `formatSize` returns: the plain byte count (`"%d B"`), or `bytes`
divided by `div` with one decimal and a unit letter (`"%.1f %cB"`). -/
inductive SizeText where
  | plain (bytes : Int)
  | scaled (bytes : Int) (div : Int) (unit : Char)
  deriving DecidableEq, Repr

/-- The loop of `formatSize`, `for n := bytes / unit; n >= unit; n /= unit`,
from the state `n`, `div`, `exp`: each round multiplies `div` by 1024 (in
`int64`) and counts `exp` up. -/
def formatLoop (n div : Int) (exp : Nat) : Int × Nat :=
  if 1024 ≤ n then formatLoop (n.tdiv 1024) (wrapInt64 (div * 1024)) (exp + 1)
  else (div, exp)
termination_by n.toNat
decreasing_by
  rename_i h
  rw [Int.tdiv_eq_ediv (by omega) (by omega)]
  omega

/-- Go `formatSize`, with which `printResults` formats the sizes it prints;
`none` stands for the panic of an index out of range in `"KMGTPE"[exp]`. -/
def formatSize (bytes : Int) : Option SizeText :=
  if bytes < 1024 then some (SizeText.plain bytes)
  else
    match formatLoop (bytes.tdiv 1024) 1024 0 with
    | (div, exp) =>
      match "KMGTPE".data.get? exp with
      | none => none
      | some unit => some (SizeText.scaled bytes div unit)

end DupFinder

/-! ## The task store of `project_4/main.go` -/

namespace TaskApi

/-- Go `Task`; the times are instants. -/
structure Task where
  ID : Int
  Title : String
  Description : String
  Status : String
  Priority : String
  CreatedAt : Int
  UpdatedAt : Int
  deriving DecidableEq, Repr

/-- Go `CreateTaskRequest`. -/
structure CreateTaskRequest where
  Title : String
  Description : String
  Priority : String
  deriving DecidableEq, Repr

/-- Go `UpdateTaskRequest`: a nil pointer is `none`. -/
structure UpdateTaskRequest where
  Title : Option String
  Description : Option String
  Status : Option String
  Priority : Option String
  deriving DecidableEq, Repr

/-- Go `TaskStore`: the map `tasks` as an association list with distinct
keys, and `nextID`. The mutex serialises the calls and is not modelled. -/
structure TaskStore where
  tasks : List (Int × Task)
  nextID : Int
  deriving DecidableEq, Repr

/-- Go `NewTaskStore`. -/
def NewTaskStore : TaskStore := { tasks := [], nextID := 1 }

/-- Read `tasks[id]`: the task and whether it exists. -/
def lookup (m : List (Int × Task)) (id : Int) : Option Task :=
  match m with
  | [] => none
  | (k, t) :: rest => if k = id then some t else lookup rest id

/-- Assignment `tasks[id] = task`. -/
def store (m : List (Int × Task)) (id : Int) (task : Task) : List (Int × Task) :=
  match m with
  | [] => [(id, task)]
  | (k, t) :: rest => if k = id then (k, task) :: rest else (k, t) :: store rest id task

/-- Go `delete(tasks, id)`. -/
def remove (m : List (Int × Task)) (id : Int) : List (Int × Task) :=
  match m with
  | [] => []
  | (k, t) :: rest => if k = id then rest else (k, t) :: remove rest id

/-- The priority `CreateTask` stores: `medium` unless the request names one
of `low`, `medium`, `high`. -/
def createPriority (priority : String) : String :=
  let p := if priority = "" then "medium" else priority
  if p ≠ "low" ∧ p ≠ "medium" ∧ p ≠ "high" then "medium" else p

/-- Go `TaskStore.CreateTask` at the time `now`: the task returned and the
store afterwards. `nextID++` is arithmetic of `int`. -/
def TaskStore.CreateTask (ts : TaskStore) (req : CreateTaskRequest) (now : Int) :
    Task × TaskStore :=
  let task : Task :=
    { ID := ts.nextID
      Title := req.Title
      Description := req.Description
      Status := "pending"
      Priority := createPriority req.Priority
      CreatedAt := now
      UpdatedAt := now }
  (task, { tasks := store ts.tasks ts.nextID task
           nextID := DupFinder.wrapInt64 (ts.nextID + 1) })

/-- The field updates of `UpdateTask`. -/
def applyUpdate (task : Task) (req : UpdateTaskRequest) (now : Int) : Task :=
  let task := match req.Title with
    | some title => { task with Title := title }
    | none => task
  let task := match req.Description with
    | some description => { task with Description := description }
    | none => task
  let task := match req.Status with
    | some status =>
      if status = "pending" ∨ status = "in_progress" ∨ status = "completed" then
        { task with Status := status }
      else task
    | none => task
  let task := match req.Priority with
    | some priority =>
      if priority = "low" ∨ priority = "medium" ∨ priority = "high" then
        { task with Priority := priority }
      else task
    | none => task
  { task with UpdatedAt := now }

/-- The zero value `Task{}`. -/
def zeroTask : Task :=
  { ID := 0, Title := "", Description := "", Status := "", Priority := "",
    CreatedAt := 0, UpdatedAt := 0 }

/-- Go `TaskStore.UpdateTask` at the time `now`. -/
def TaskStore.UpdateTask (ts : TaskStore) (id : Int) (req : UpdateTaskRequest) (now : Int) :
    (Task × Bool) × TaskStore :=
  match lookup ts.tasks id with
  | none => ((zeroTask, false), ts)
  | some task =>
    let task := applyUpdate task req now
    ((task, true), { ts with tasks := store ts.tasks id task })

/-- Go `TaskStore.DeleteTask`. -/
def TaskStore.DeleteTask (ts : TaskStore) (id : Int) : Bool × TaskStore :=
  match lookup ts.tasks id with
  | none => (false, ts)
  | some _ => (true, { ts with tasks := remove ts.tasks id })

/-- One call of a mutating method of the store. -/
inductive Call where
  | create (req : CreateTaskRequest) (now : Int)
  | update (id : Int) (req : UpdateTaskRequest) (now : Int)
  | delete (id : Int)
  deriving DecidableEq, Repr

/-- The store after one call. -/
def step (ts : TaskStore) : Call → TaskStore
  | Call.create req now => (ts.CreateTask req now).2
  | Call.update id req now => (ts.UpdateTask id req now).2
  | Call.delete id => (ts.DeleteTask id).2

/-- The store after a sequence of calls. -/
def run : List Call → TaskStore → TaskStore
  | [], ts => ts
  | c :: rest, ts => run rest (step ts c)

/-- The IDs returned by the `CreateTask` calls of a sequence, in order. -/
def createdIDs : List Call → TaskStore → List Int
  | [], _ => []
  | Call.create req now :: rest, ts =>
    (ts.CreateTask req now).1.ID :: createdIDs rest (step ts (Call.create req now))
  | c :: rest, ts => createdIDs rest (step ts c)

/-- The number of `CreateTask` calls in a sequence. -/
def numCreates : List Call → Nat
  | [] => 0
  | Call.create _ _ :: rest => numCreates rest + 1
  | _ :: rest => numCreates rest

/-- The invariant of the store after `created` calls of `CreateTask`:
`nextID` is `1 + created`, and every stored task has its map key as `ID`,
between 1 and `nextID - 1`. -/
def StoreInv (ts : TaskStore) (created : Nat) : Prop :=
  ts.nextID = 1 + (created : Int) ∧
  ∀ k t, (k, t) ∈ ts.tasks → t.ID = k ∧ 1 ≤ k ∧ k < ts.nextID

/-- A request used in the sample call sequences. -/
def sampleRequest : CreateTaskRequest :=
  { Title := "task", Description := "", Priority := "low" }

/-- The call sequence that `count` times creates a task and deletes it. -/
def createDelete : Nat → List Call
  | 0 => []
  | count + 1 =>
    createDelete count ++ [Call.create sampleRequest 0, Call.delete (1 + (count : Int))]

/-- A call sequence with 2^63 - 1 calls of `CreateTask`: all tasks but the
last are deleted again. -/
def overflowCalls : List Call :=
  createDelete (2 ^ 63 - 2) ++ [Call.create sampleRequest 0]

/-- A short call sequence: three tasks created, the first deleted, the
second updated. -/
def sampleCalls : List Call :=
  [Call.create sampleRequest 1, Call.create sampleRequest 2, Call.delete 1,
   Call.create sampleRequest 3,
   Call.update 2 { Title := none, Description := none, Status := some "completed",
                   Priority := none } 4]

end TaskApi

/-! # Theorems -/

namespace DupFinder


/-! ## The map built by `findDuplicates` -/

theorem mapGet_mapSet {β : Type} (m : List (String × List β)) (k k' : String) (v : List β) :
    mapGet (mapSet m k v) k' = if k = k' then v else mapGet m k' := by
  induction m with
  | nil => simp [mapSet, mapGet]
  | cons p m ih =>
    obtain ⟨a, b⟩ := p
    by_cases hak : a = k
    · subst hak
      by_cases hk : a = k' <;> simp [mapSet, mapGet, hk]
    · by_cases hk : a = k'
      · subst hk
        have : ¬ k = a := fun h => hak h.symm
        simp [mapSet, mapGet, hak, this]
      · simp [mapSet, mapGet, hak, hk, ih]

theorem mem_keys_mapSet {β : Type} (m : List (String × List β)) (k k' : String) (v : List β) :
    k' ∈ (mapSet m k v).map Prod.fst ↔ k' = k ∨ k' ∈ m.map Prod.fst := by
  induction m with
  | nil => simp [mapSet]
  | cons p m ih =>
    obtain ⟨a, b⟩ := p
    by_cases hak : a = k
    · subst hak
      simp [mapSet]
    · simp only [mapSet, hak, if_false, List.map_cons, List.mem_cons, ih]
      tauto

theorem nodup_keys_mapSet {β : Type} (m : List (String × List β)) (k : String) (v : List β)
    (h : (m.map Prod.fst).Nodup) : ((mapSet m k v).map Prod.fst).Nodup := by
  induction m with
  | nil => simp [mapSet]
  | cons p m ih =>
    obtain ⟨a, b⟩ := p
    rw [List.map_cons, List.nodup_cons] at h
    by_cases hak : a = k
    · subst hak
      simpa [mapSet] using h
    · simp only [mapSet, hak, if_false, List.map_cons, List.nodup_cons]
      refine ⟨?_, ih h.2⟩
      rw [mem_keys_mapSet]
      rintro (h1 | h1)
      · exact hak h1
      · exact h.1 h1

theorem mapGet_of_mem {β : Type} (m : List (String × List β)) (k : String) (v : List β)
    (hn : (m.map Prod.fst).Nodup) (h : (k, v) ∈ m) : mapGet m k = v := by
  induction m with
  | nil => cases h
  | cons p m ih =>
    obtain ⟨a, b⟩ := p
    rw [List.map_cons, List.nodup_cons] at hn
    rcases List.mem_cons.1 h with h | h
    · cases h
      simp [mapGet]
    · have hak : a ≠ k := by
        rintro rfl
        exact hn.1 (List.mem_map.2 ⟨(a, v), h, rfl⟩)
      simp [mapGet, hak, ih hn.2 h]

theorem groupByHash_snoc (files : List FileInfo) (file : FileInfo) :
    groupByHash (files ++ [file]) =
      mapSet (groupByHash files) file.Hash (mapGet (groupByHash files) file.Hash ++ [file]) := by
  simp [groupByHash, List.foldl_append]

theorem groupByHash_nodup (files : List FileInfo) :
    ((groupByHash files).map Prod.fst).Nodup := by
  induction files using List.reverseRecOn with
  | nil => simp [groupByHash]
  | append_singleton files file ih =>
    rw [groupByHash_snoc]
    exact nodup_keys_mapSet _ _ _ ih

theorem mapGet_groupByHash (files : List FileInfo) (k : String) :
    mapGet (groupByHash files) k = files.filter (fun f => decide (f.Hash = k)) := by
  induction files using List.reverseRecOn with
  | nil => simp [groupByHash, mapGet]
  | append_singleton files file ih =>
    rw [groupByHash_snoc, mapGet_mapSet, List.filter_append]
    by_cases h : file.Hash = k
    · subst h
      simp [ih]
    · simp [h, ih]

theorem mem_groupByHash (files : List FileInfo) (k : String) (v : List FileInfo)
    (h : (k, v) ∈ groupByHash files) : v = files.filter (fun f => decide (f.Hash = k)) := by
  rw [← mapGet_groupByHash, mapGet_of_mem _ k v (groupByHash_nodup files) h]

theorem mem_keys_groupByHash (files : List FileInfo) (k : String) :
    k ∈ (groupByHash files).map Prod.fst ↔ ∃ f ∈ files, f.Hash = k := by
  induction files using List.reverseRecOn with
  | nil => simp [groupByHash]
  | append_singleton files file ih =>
    rw [groupByHash_snoc, mem_keys_mapSet, ih]
    constructor
    · rintro (h | ⟨f, hf, hk⟩)
      · exact ⟨file, by simp, h.symm⟩
      · exact ⟨f, by simp [hf], hk⟩
    · rintro ⟨f, hf, hk⟩
      rcases List.mem_append.1 hf with hf | hf
      · exact Or.inr ⟨f, hf, hk⟩
      · rw [List.mem_singleton] at hf
        subst hf
        exact Or.inl hk.symm

/-! ## The groups collected from the map -/

theorem collectGroups_of_mem (m : List (String × List FileInfo)) (g : DuplicateGroup)
    (h : g ∈ collectGroups m) :
    (g.Hash, g.Files) ∈ m ∧ 1 < g.Files.length ∧ g.Count = (g.Files.length : Int) ∧
      g.Size = ((g.Files.head?).map (fun f => f.Size)).getD 0 := by
  induction m with
  | nil => simp [collectGroups] at h
  | cons p m ih =>
    obtain ⟨k, v⟩ := p
    unfold collectGroups at h
    split at h
    · rename_i hv
      rcases List.mem_cons.1 h with h | h
      · subst h
        refine ⟨by simp, hv, rfl, ?_⟩
        cases v with
        | nil => simp at hv
        | cons f rest => simp
      · obtain ⟨h1, h2⟩ := ih h
        exact ⟨List.mem_cons_of_mem _ h1, h2⟩
    · obtain ⟨h1, h2⟩ := ih h
      exact ⟨List.mem_cons_of_mem _ h1, h2⟩

theorem collectGroups_complete (m : List (String × List FileInfo)) (k : String)
    (v : List FileInfo) (h : (k, v) ∈ m) (hv : 1 < v.length) :
    ∃ g ∈ collectGroups m, g.Hash = k ∧ g.Files = v := by
  induction m with
  | nil => cases h
  | cons p m ih =>
    obtain ⟨k', v'⟩ := p
    rcases List.mem_cons.1 h with h | h
    · cases h
      refine ⟨{ Hash := k, Size := (v.get ⟨0, Nat.lt_trans Nat.zero_lt_one hv⟩).Size,
                Files := v, Count := (v.length : Int) }, ?_, rfl, rfl⟩
      unfold collectGroups
      rw [dif_pos hv]
      exact List.mem_cons_self _ _
    · obtain ⟨g, hg, hg'⟩ := ih h
      refine ⟨g, ?_, hg'⟩
      unfold collectGroups
      split
      · exact List.mem_cons_of_mem _ hg
      · exact hg

theorem collectGroups_hash_sublist (m : List (String × List FileInfo)) :
    ((collectGroups m).map (fun g => g.Hash)).Sublist (m.map Prod.fst) := by
  induction m with
  | nil => simp [collectGroups]
  | cons p m ih =>
    obtain ⟨k, v⟩ := p
    unfold collectGroups
    split
    · simpa using ih
    · exact List.Sublist.cons _ ih

/-- What `findDuplicates` returns is a permutation of the groups collected
from the map in the order of iteration. -/
theorem findDuplicates_perm (ord : MapOrder) (S : SliceSort) (files : List FileInfo) :
    (findDuplicates ord S files).Perm (collectGroups (ord.iterate (groupByHash files))) :=
  S.perm _ _

theorem findDuplicates_of_mem (ord : MapOrder) (S : SliceSort) (files : List FileInfo)
    (g : DuplicateGroup) (h : g ∈ findDuplicates ord S files) :
    g.Files = files.filter (fun f => decide (f.Hash = g.Hash)) ∧ 1 < g.Files.length ∧
      g.Count = (g.Files.length : Int) ∧
      g.Size = ((g.Files.head?).map (fun f => f.Size)).getD 0 := by
  have h1 := (findDuplicates_perm ord S files).subset h
  obtain ⟨hm, h2⟩ := collectGroups_of_mem _ g h1
  have hm' : (g.Hash, g.Files) ∈ groupByHash files := (ord.perm _).subset hm
  exact ⟨mem_groupByHash files _ _ hm', h2⟩

theorem findDuplicates_complete (ord : MapOrder) (S : SliceSort) (files : List FileInfo)
    (k : String) (hk : 1 < (files.filter (fun f => decide (f.Hash = k))).length) :
    ∃ g ∈ findDuplicates ord S files, g.Hash = k := by
  have hmem : (k, mapGet (groupByHash files) k) ∈ groupByHash files := by
    have hex : ∃ f ∈ files, f.Hash = k := by
      cases hf : files.filter (fun f => decide (f.Hash = k)) with
      | nil => rw [hf] at hk; simp at hk
      | cons f rest =>
        have : f ∈ files.filter (fun f => decide (f.Hash = k)) := by rw [hf]; simp
        rw [List.mem_filter] at this
        exact ⟨f, this.1, by simpa using this.2⟩
    obtain ⟨p, hp, hpk⟩ := List.mem_map.1 ((mem_keys_groupByHash files k).2 hex)
    obtain ⟨a, b⟩ := p
    simp only at hpk
    subst hpk
    rw [mapGet_of_mem _ a b (groupByHash_nodup files) hp]
    exact hp
  rw [mapGet_groupByHash] at hmem
  obtain ⟨g, hg, hgk, _⟩ :=
    collectGroups_complete _ k _ ((ord.perm _).mem_iff.2 hmem) hk
  exact ⟨g, (findDuplicates_perm ord S files).mem_iff.2 hg, hgk⟩

theorem findDuplicates_hash_nodup (ord : MapOrder) (S : SliceSort) (files : List FileInfo) :
    ((findDuplicates ord S files).map (fun g => g.Hash)).Nodup := by
  have h1 : ((collectGroups (ord.iterate (groupByHash files))).map (fun g => g.Hash)).Nodup := by
    refine List.Nodup.sublist (collectGroups_hash_sublist _) ?_
    exact (((ord.perm (groupByHash files)).map Prod.fst).nodup_iff).2 (groupByHash_nodup files)
  exact (((findDuplicates_perm ord S files).map _).nodup_iff).2 h1

/-- The digest classes of distinct keys, one after the other, hold the
records whose digest is one of the keys, each once. -/
theorem classes_perm_filter (files : List FileInfo) (ks : List String) (hks : ks.Nodup) :
    (ks.flatMap (fun k => files.filter (fun f => decide (f.Hash = k)))).Perm
      (files.filter (fun f => decide (f.Hash ∈ ks))) := by
  induction ks with
  | nil => simp
  | cons k ks ih =>
    rw [List.nodup_cons] at hks
    rw [List.flatMap_cons]
    have hsplit := List.filter_append_perm (fun f : FileInfo => decide (f.Hash = k))
      (files.filter (fun f => decide (f.Hash ∈ k :: ks)))
    rw [List.filter_filter, List.filter_filter] at hsplit
    have e1 : files.filter (fun a => decide (a.Hash = k) && decide (a.Hash ∈ k :: ks)) =
        files.filter (fun f => decide (f.Hash = k)) := by
      apply List.filter_congr
      intro f _
      by_cases h : f.Hash = k <;> simp [h]
    have e2 : files.filter (fun a => (!decide (a.Hash = k)) && decide (a.Hash ∈ k :: ks)) =
        files.filter (fun f => decide (f.Hash ∈ ks)) := by
      apply List.filter_congr
      intro f _
      by_cases h : f.Hash = k
      · have : k ∉ ks := hks.1
        simp [h, this]
      · simp [h]
    rw [e1, e2] at hsplit
    exact (List.Perm.append_left _ (ih hks.2)).trans hsplit

theorem sizeGreater_strictWeak : StrictWeak sizeGreater where
  irrefl := by intro a; simp [sizeGreater]
  trans := by
    intro a b c h1 h2
    simp only [sizeGreater, decide_eq_true_eq] at *
    omega
  incomp := by
    intro a b c h1 h2
    simp only [sizeGreater, decide_eq_false_iff_not] at *
    omega

theorem modifiedBefore_strictWeak : StrictWeak modifiedBefore where
  irrefl := by intro a; simp [modifiedBefore]
  trans := by
    intro a b c h1 h2
    simp only [modifiedBefore, decide_eq_true_eq] at *
    omega
  incomp := by
    intro a b c h1 h2
    simp only [modifiedBefore, decide_eq_false_iff_not] at *
    omega

/-! ## Properties of `findDuplicates` -/

/-- C1: for every list of file records (and every map iteration order and
sort implementation) the groups of `findDuplicates` are exactly the digest
classes of the input with at least two elements: the files of a group are
all the input records with the group's hash, at least two; no two groups
share a hash; a record whose hash occurs at least twice lies in a group
with its hash and in no other group; a record whose hash occurs once lies
in no group; and all the groups together hold the colliding records, each
exactly once. -/
theorem C1_groups_are_collision_classes (ord : MapOrder) (S : SliceSort)
    (files : List FileInfo) :
    (∀ g ∈ findDuplicates ord S files,
        g.Files = files.filter (fun f => decide (f.Hash = g.Hash)) ∧ 2 ≤ g.Files.length) ∧
    ((findDuplicates ord S files).map (fun g => g.Hash)).Nodup ∧
    (∀ r ∈ files, 2 ≤ (files.filter (fun f => decide (f.Hash = r.Hash))).length →
        ∃ g ∈ findDuplicates ord S files, g.Hash = r.Hash ∧ r ∈ g.Files ∧
          ∀ g2 ∈ findDuplicates ord S files, r ∈ g2.Files → g2 = g) ∧
    (∀ r ∈ files, (files.filter (fun f => decide (f.Hash = r.Hash))).length < 2 →
        ∀ g ∈ findDuplicates ord S files, r ∉ g.Files) ∧
    ((findDuplicates ord S files).flatMap (fun g => g.Files)).Perm
      (files.filter (fun r =>
        decide (2 ≤ (files.filter (fun f => decide (f.Hash = r.Hash))).length))) := by
  have hmem := findDuplicates_of_mem ord S files
  have hnd := findDuplicates_hash_nodup ord S files
  have hhash : ∀ g ∈ findDuplicates ord S files, ∀ r ∈ g.Files, r.Hash = g.Hash := by
    intro g hg r hr
    rw [(hmem g hg).1, List.mem_filter] at hr
    simpa using hr.2
  refine ⟨fun g hg => ⟨(hmem g hg).1, (hmem g hg).2.1⟩, hnd, ?_, ?_, ?_⟩
  · intro r hr hcount
    obtain ⟨g, hg, hgk⟩ := findDuplicates_complete ord S files r.Hash hcount
    refine ⟨g, hg, hgk, ?_, ?_⟩
    · rw [(hmem g hg).1, List.mem_filter]
      exact ⟨hr, by simp [hgk]⟩
    · intro g2 hg2 hr2
      exact List.inj_on_of_nodup_map hnd hg2 hg ((hhash g2 hg2 r hr2).symm.trans hgk.symm)
  · intro r _ hcount g hg hrg
    have h2 := (hmem g hg).2.1
    rw [(hmem g hg).1, ← hhash g hg r hrg] at h2
    omega
  · have e1 : (findDuplicates ord S files).flatMap (fun g => g.Files) =
        ((findDuplicates ord S files).map (fun g => g.Hash)).flatMap
          (fun k => files.filter (fun f => decide (f.Hash = k))) := by
      rw [List.flatMap_def, List.flatMap_def, List.map_map]
      congr 1
      apply List.map_congr_left
      intro g hg
      exact (hmem g hg).1
    rw [e1]
    refine (classes_perm_filter files _ hnd).trans (List.Perm.of_eq ?_)
    apply List.filter_congr
    intro r _
    rw [decide_eq_decide, List.mem_map]
    constructor
    · rintro ⟨g, hg, hgk⟩
      have h2 := (hmem g hg).2.1
      rw [(hmem g hg).1, hgk] at h2
      exact h2
    · intro hcount
      obtain ⟨g, hg, hgk⟩ := findDuplicates_complete ord S files r.Hash hcount
      exact ⟨g, hg, hgk⟩

/-- C2: every group returned by `findDuplicates` has `Count` equal to the
length of its `Files`, `Count` at least 2, and every member carries the
group's hash. -/
theorem C2_group_count_and_hash (ord : MapOrder) (S : SliceSort) (files : List FileInfo) :
    ∀ g ∈ findDuplicates ord S files,
      g.Count = (g.Files.length : Int) ∧ 2 ≤ g.Count ∧ ∀ f ∈ g.Files, f.Hash = g.Hash := by
  intro g hg
  obtain ⟨hfiles, hlen, hcount, _⟩ := findDuplicates_of_mem ord S files g hg
  refine ⟨hcount, ?_, ?_⟩
  · rw [hcount]
    exact_mod_cast hlen
  · intro f hf
    rw [hfiles, List.mem_filter] at hf
    simpa using hf.2

/-- C2 at a concrete input: two records with one hash and a third with
another; the one group has `Count` 2 and both members carry its hash. -/
theorem C2_group_count_and_hash_witness :
    sampleGroup ∈ findDuplicates insertionOrder insertionSlice sampleFiles ∧
    (sampleGroup.Count = (sampleGroup.Files.length : Int) ∧ 2 ≤ sampleGroup.Count ∧
      ∀ f ∈ sampleGroup.Files, f.Hash = sampleGroup.Hash) :=
  ⟨by decide, C2_group_count_and_hash insertionOrder insertionSlice sampleFiles sampleGroup
    (by decide)⟩

/-- C5: the groups returned by `findDuplicates` are in descending order of
`Size`: every group is at least as large as each group after it, in
particular as the one that follows it. -/
theorem C5_groups_descending_by_size (ord : MapOrder) (S : SliceSort)
    (files : List FileInfo) :
    (findDuplicates ord S files).Pairwise (fun a b => a.Size ≥ b.Size) ∧
    (findDuplicates ord S files).Chain' (fun a b => a.Size ≥ b.Size) := by
  have h : (findDuplicates ord S files).Pairwise (fun a b => a.Size ≥ b.Size) := by
    have hs := S.sorted sizeGreater sizeGreater_strictWeak
      (collectGroups (ord.iterate (groupByHash files)))
    refine List.Pairwise.imp ?_ hs
    intro a b hab
    simp only [sizeGreater, decide_eq_false_iff_not] at hab
    omega
  exact ⟨h, List.Pairwise.chain' h⟩

/-! ## `int64` arithmetic -/

theorem wrapInt64_emod (x : Int) : wrapInt64 x % 2 ^ 64 = x % 2 ^ 64 := by
  unfold wrapInt64
  omega

theorem wrapInt64_congr (x y : Int) (h : x % 2 ^ 64 = y % 2 ^ 64) :
    wrapInt64 x = wrapInt64 y := by
  unfold wrapInt64
  omega

theorem wrapInt64_of_range (x : Int) (h1 : -(2 ^ 63) ≤ x) (h2 : x < 2 ^ 63) :
    wrapInt64 x = x := by
  unfold wrapInt64
  omega

theorem wrapInt64_range (x : Int) : -(2 ^ 63) ≤ wrapInt64 x ∧ wrapInt64 x < 2 ^ 63 := by
  unfold wrapInt64
  omega

theorem wrapInt64_idem (x : Int) : wrapInt64 (wrapInt64 x) = wrapInt64 x :=
  wrapInt64_congr _ _ (wrapInt64_emod x)

theorem wrapInt64_add_left (x y : Int) : wrapInt64 (wrapInt64 x + y) = wrapInt64 (x + y) := by
  apply wrapInt64_congr
  rw [Int.add_emod, wrapInt64_emod, ← Int.add_emod]

theorem wrapInt64_add_right (x y : Int) : wrapInt64 (x + wrapInt64 y) = wrapInt64 (x + y) := by
  apply wrapInt64_congr
  rw [Int.add_emod, wrapInt64_emod, ← Int.add_emod]

theorem wrapInt64_mul_right (x y : Int) : wrapInt64 (x * wrapInt64 y) = wrapInt64 (x * y) := by
  apply wrapInt64_congr
  rw [Int.mul_emod, wrapInt64_emod, ← Int.mul_emod]

/-! ## The loops of `printResults` -/

theorem markFiles_succ (j : Nat) (l : List FileInfo) :
    markFiles (j + 1) l = l.map (fun f => (Status.removable, f)) := by
  induction l generalizing j with
  | nil => rfl
  | cons f rest ih => simp [markFiles, ih]

theorem markFiles_zero_cons (f : FileInfo) (rest : List FileInfo) :
    markFiles 0 (f :: rest) = (Status.keep, f) :: rest.map (fun f => (Status.removable, f)) := by
  simp [markFiles, markFiles_succ]

theorem reportGroup_ok (S : SliceSort) (i : Nat) (g : DuplicateGroup)
    (h : 8 ≤ g.Hash.utf8ByteSize) :
    reportGroup S i g = some
      { index := i + 1, hash := g.Hash, size := g.Size,
        lines := markFiles 0 (S.sort modifiedBefore g.Files),
        wastedSpace := wrapInt64 (g.Size * (g.Count - 1)) } := by
  unfold reportGroup
  rw [if_neg (by omega)]
  simp [wrapInt64_mul_right]

/-- The outer loop of `printResults` on groups whose hashes have at least 8
bytes: it ends without a panic, reports the groups one by one, and its
total is the wrapped sum of the starting total and the groups' figures. -/
theorem reportLoop_ok (S : SliceSort) (groups : List DuplicateGroup)
    (h : ∀ g ∈ groups, 8 ≤ g.Hash.utf8ByteSize) (i : Nat) (t : Int) :
    ∃ rs T, reportLoop S i groups t = some (rs, T) ∧
      wrapInt64 T = wrapInt64 (t + (groups.map (fun g => g.Size * (g.Count - 1))).sum) ∧
      (wrapInt64 t = t → wrapInt64 T = T) ∧
      List.Forall₂ (fun g r => r.lines = markFiles 0 (S.sort modifiedBefore g.Files) ∧
        r.wastedSpace = wrapInt64 (g.Size * (g.Count - 1))) groups rs := by
  induction groups generalizing i t with
  | nil => exact ⟨[], t, rfl, by simp, fun ht => ht, List.Forall₂.nil⟩
  | cons g rest ih =>
    have hg : 8 ≤ g.Hash.utf8ByteSize := h g (List.mem_cons_self _ _)
    obtain ⟨rs, T, hloop, hT, hrange, hall⟩ :=
      ih (fun x hx => h x (List.mem_cons_of_mem _ hx)) (i + 1)
        (wrapInt64 (t + wrapInt64 (g.Size * (g.Count - 1))))
    refine ⟨{ index := i + 1, hash := g.Hash, size := g.Size,
               lines := markFiles 0 (S.sort modifiedBefore g.Files),
               wastedSpace := wrapInt64 (g.Size * (g.Count - 1)) } :: rs, T, ?_, ?_, ?_,
      List.Forall₂.cons ⟨rfl, rfl⟩ hall⟩
    · simp only [reportLoop, reportGroup_ok S i g hg, hloop]
    · rw [hT, wrapInt64_add_left, List.map_cons, List.sum_cons]
      generalize g.Size * (g.Count - 1) = x
      generalize (rest.map (fun g => g.Size * (g.Count - 1))).sum = y
      unfold wrapInt64
      omega
    · intro _
      exact hrange (wrapInt64_idem _)

theorem forall₂_imp_of_mem {α β : Type} {R Q : α → β → Prop} {l₁ : List α} {l₂ : List β}
    (h : List.Forall₂ R l₁ l₂) (himp : ∀ a ∈ l₁, ∀ b, R a b → Q a b) :
    List.Forall₂ Q l₁ l₂ := by
  induction h with
  | nil => exact List.Forall₂.nil
  | cons hab _ ih =>
    exact List.Forall₂.cons (himp _ (List.mem_cons_self _ _) _ hab)
      (ih (fun a ha b hb => himp a (List.mem_cons_of_mem _ ha) b hb))

theorem map_eq_of_forall₂ {α β γ : Type} {f : α → γ} {g : β → γ} {l₁ : List α}
    {l₂ : List β} (h : List.Forall₂ (fun a b => g b = f a) l₁ l₂) : l₂.map g = l₁.map f := by
  induction h with
  | nil => rfl
  | cons hab _ ih => simp [hab, ih]

/-! ## Properties of `printResults` -/

/-- C3: for every sequence of duplicate groups (groups that meet the data
model: `Count` is the number of files, at least 2, the hash is a digest)
`printResults` ends normally and reports the groups one by one; in each
report the first line is the one file marked keep, it is the first file of
the group's files sorted by modification time, no file of the group was
modified earlier, and all other lines, `Count - 1` of them, are marked
removable. -/
theorem C3_keep_oldest_remove_others (S : SliceSort) (duplicates : List DuplicateGroup)
    (showDetails : Bool) (hwf : ∀ g ∈ duplicates, wellFormedGroup g) :
    ∃ out, printResults S duplicates showDetails = some out ∧
      List.Forall₂ (fun g r =>
        ∃ first rest, S.sort modifiedBefore g.Files = first :: rest ∧
          (first :: rest).Perm g.Files ∧
          (∀ m ∈ g.Files, first.Modified ≤ m.Modified) ∧
          r.lines = (Status.keep, first) :: rest.map (fun f => (Status.removable, f)) ∧
          (r.lines.filter (fun l => decide (l.1 = Status.keep))).length = 1 ∧
          ((r.lines.filter (fun l => decide (l.1 = Status.removable))).length : Int)
            = g.Count - 1)
        duplicates out.groups := by
  by_cases hd : duplicates.length = 0
  · have : duplicates = [] := List.length_eq_zero.1 hd
    subst this
    exact ⟨Output.noDuplicates, by simp [printResults], by simp [Output.groups]⟩
  · obtain ⟨rs, T, hloop, _, _, hall⟩ :=
      reportLoop_ok S duplicates (fun g hg => (hwf g hg).2.2) 0 0
    refine ⟨Output.results rs duplicates.length T, by simp [printResults, hd, hloop], ?_⟩
    simp only [Output.groups]
    refine forall₂_imp_of_mem hall ?_
    intro g hg r hr
    obtain ⟨hcount, htwo, _⟩ := hwf g hg
    have hperm := S.perm modifiedBefore g.Files
    have hsorted := S.sorted modifiedBefore modifiedBefore_strictWeak g.Files
    cases hs : S.sort modifiedBefore g.Files with
    | nil =>
      rw [hs] at hperm
      have := hperm.length_eq
      simp only [List.length_nil] at this
      omega
    | cons first rest =>
      rw [hs] at hperm hsorted
      rw [List.pairwise_cons] at hsorted
      have hlines : r.lines =
          (Status.keep, first) :: rest.map (fun f => (Status.removable, f)) := by
        rw [hr.1, hs, markFiles_zero_cons]
      have hlen : rest.length + 1 = g.Files.length := by
        simpa using hperm.length_eq
      refine ⟨first, rest, rfl, hperm, ?_, hlines, ?_, ?_⟩
      · intro m hm
        rcases List.mem_cons.1 (hperm.mem_iff.2 hm) with rfl | hm
        · exact Int.le_refl _
        · have := hsorted.1 m hm
          simp only [modifiedBefore, decide_eq_false_iff_not] at this
          omega
      · rw [hlines]
        simp [List.filter_cons, List.filter_map, Function.comp_def]
      · rw [hlines]
        simp only [List.filter_cons, List.filter_map, Function.comp_def]
        simp
        omega

/-- C3 at a concrete group: `old.txt` is kept, `new.txt` can be removed. -/
theorem C3_keep_oldest_remove_others_witness :
    (∀ g ∈ [sampleGroup], wellFormedGroup g) ∧
    ∃ out, printResults insertionSlice [sampleGroup] false = some out ∧
      List.Forall₂ (fun g r =>
        ∃ first rest, insertionSlice.sort modifiedBefore g.Files = first :: rest ∧
          (first :: rest).Perm g.Files ∧
          (∀ m ∈ g.Files, first.Modified ≤ m.Modified) ∧
          r.lines = (Status.keep, first) :: rest.map (fun f => (Status.removable, f)) ∧
          (r.lines.filter (fun l => decide (l.1 = Status.keep))).length = 1 ∧
          ((r.lines.filter (fun l => decide (l.1 = Status.removable))).length : Int)
            = g.Count - 1)
        [sampleGroup] out.groups :=
  ⟨by decide, C3_keep_oldest_remove_others insertionSlice [sampleGroup] false (by decide)⟩

/-- C4 fails as stated: for the empty sequence `printResults` prints the
no-duplicates message and no total (the total is not 0, there is none); and
for a group of three files of 2^62 bytes the figures are computed in
`int64` and come out as -2^63, not as `Size × (Count − 1)` = 2^63. -/
theorem C4_no_total_when_empty_and_int64_wraps :
    printResults insertionSlice [] false = some Output.noDuplicates ∧
    (printResults insertionSlice [] false).bind Output.total ≠ some 0 ∧
    wellFormedGroup hugeGroup ∧
    ((printResults insertionSlice [hugeGroup] false).map
        (fun out => out.groups.map (fun r => r.wastedSpace))) = some [-(2 ^ 63)] ∧
    (printResults insertionSlice [hugeGroup] false).bind Output.total = some (-(2 ^ 63)) ∧
    hugeGroup.Size * (hugeGroup.Count - 1) = 2 ^ 63 := by
  refine ⟨by decide, by decide, by decide, by decide, by decide, by decide⟩

/-- C4 (amended): for the empty sequence `printResults` prints only the
no-duplicates message. For a non-empty sequence (of groups whose hashes have
at least 8 bytes, so that printing the header does not panic) the figure of
each group is `Size × (Count − 1)` and the total is the sum of these
products over all groups, both reduced to the `int64` range; when sizes are
not negative, counts are at least 1 and the sum is below 2^63, the figures
are exactly `Size × (Count − 1)` and their sum. -/
theorem C4_wasted_space_figures (S : SliceSort) (duplicates : List DuplicateGroup)
    (showDetails : Bool) :
    (duplicates = [] → printResults S duplicates showDetails = some Output.noDuplicates) ∧
    (duplicates ≠ [] → (∀ g ∈ duplicates, 8 ≤ g.Hash.utf8ByteSize) →
      ∃ reports total,
        printResults S duplicates showDetails =
          some (Output.results reports duplicates.length total) ∧
        reports.map (fun r => r.wastedSpace) =
          duplicates.map (fun g => wrapInt64 (g.Size * (g.Count - 1))) ∧
        total = wrapInt64 ((duplicates.map (fun g => g.Size * (g.Count - 1))).sum) ∧
        ((∀ g ∈ duplicates, 0 ≤ g.Size ∧ 1 ≤ g.Count) →
          (duplicates.map (fun g => g.Size * (g.Count - 1))).sum < 2 ^ 63 →
          reports.map (fun r => r.wastedSpace) =
            duplicates.map (fun g => g.Size * (g.Count - 1)) ∧
          total = (duplicates.map (fun g => g.Size * (g.Count - 1))).sum)) := by
  constructor
  · rintro rfl
    simp [printResults]
  · intro hne hhash
    have hd : ¬ duplicates.length = 0 := fun h => hne (List.length_eq_zero.1 h)
    obtain ⟨rs, T, hloop, hT, hrange, hall⟩ := reportLoop_ok S duplicates hhash 0 0
    have hT' : T = wrapInt64 ((duplicates.map (fun g => g.Size * (g.Count - 1))).sum) := by
      rw [← hrange (by decide), hT, Int.zero_add]
    have hmap : rs.map (fun r => r.wastedSpace) =
        duplicates.map (fun g => wrapInt64 (g.Size * (g.Count - 1))) :=
      map_eq_of_forall₂ (forall₂_imp_of_mem hall (fun _ _ _ hab => hab.2))
    refine ⟨rs, T, by simp [printResults, hd, hloop], hmap, hT', ?_⟩
    intro hpos hsum
    have hterm : ∀ x ∈ duplicates.map (fun g => g.Size * (g.Count - 1)), 0 ≤ x := by
      intro x hx
      obtain ⟨g, hg, rfl⟩ := List.mem_map.1 hx
      exact Int.mul_nonneg (hpos g hg).1 (by have := (hpos g hg).2; omega)
    constructor
    · rw [hmap]
      apply List.map_congr_left
      intro g hg
      have h0 := hterm _ (List.mem_map_of_mem (fun g => g.Size * (g.Count - 1)) hg)
      have hle := List.single_le_sum hterm _
        (List.mem_map_of_mem (fun g => g.Size * (g.Count - 1)) hg)
      exact wrapInt64_of_range _ (by omega) (by omega)
    · rw [hT']
      have h0 := List.sum_nonneg hterm
      exact wrapInt64_of_range _ (by omega) hsum

/-- C4 (amended) at a concrete group of two files of 3 bytes: 3 bytes can be
freed, in the group and in total. -/
theorem C4_wasted_space_figures_witness :
    ([sampleGroup] ≠ [] ∧ (∀ g ∈ [sampleGroup], 8 ≤ g.Hash.utf8ByteSize) ∧
      (∀ g ∈ [sampleGroup], 0 ≤ g.Size ∧ 1 ≤ g.Count) ∧
      ([sampleGroup].map (fun g => g.Size * (g.Count - 1))).sum < 2 ^ 63) ∧
    ∃ reports total,
      printResults insertionSlice [sampleGroup] false =
        some (Output.results reports 1 total) ∧
      reports.map (fun r => r.wastedSpace) = [3] ∧ total = 3 := by
  refine ⟨⟨by decide, by decide, by decide, by decide⟩, ?_⟩
  obtain ⟨reports, total, h1, _, _, h4⟩ :=
    (C4_wasted_space_figures insertionSlice [sampleGroup] false).2 (by decide) (by decide)
  obtain ⟨h5, h6⟩ := h4 (by decide) (by decide)
  exact ⟨reports, total, h1, h5.trans (by decide), h6.trans (by decide)⟩

/-! ## The walk function and the walk -/

theorem extFound_iff (L : StdLib) (ext : String) (extensions : List String) :
    extFound L ext extensions = true ↔ ∃ a ∈ extensions, ext = L.toLower a := by
  induction extensions with
  | nil => simp [extFound]
  | cons a rest ih =>
    unfold extFound
    by_cases h : ext = L.toLower a
    · simp [h]
    · simp [h, ih]

theorem filter_skips_iff (L : StdLib) (extensions : List String) (path : String) :
    (decide (extensions.length > 0) &&
        !(extFound L (L.toLower (filepathExt path)) extensions)) = false ↔
      allowedPath L extensions path := by
  unfold allowedPath
  cases extensions with
  | nil => simp
  | cons a rest =>
    have h := extFound_iff L (L.toLower (filepathExt path)) (a :: rest)
    cases hf : extFound L (L.toLower (filepathExt path)) (a :: rest) with
    | true => simpa using h.1 hf
    | false =>
      have : ¬ ∃ b ∈ a :: rest, L.toLower (filepathExt path) = L.toLower b := by
        intro hex
        rw [h.2 hex] at hf
        cases hf
      simpa using this

theorem walkFn_eq (L : StdLib) (extensions : List String) (files : List FileInfo)
    (e : WalkEntry) :
    walkFn L extensions files e =
      match e.err with
      | some err => (files, some err)
      | none => (files ++ (walkFn L extensions [] e).1, none) := by
  unfold walkFn
  cases e.err with
  | some err => rfl
  | none =>
    simp only
    split
    · simp
    · split
      · simp
      · split <;> simp

/-- The records the walk function appends for one entry: at most one, and
only for an entry without walk error that is not a directory, passes the
filter and is hashed without error. -/
theorem mem_walkFn_nil (L : StdLib) (extensions : List String) (e : WalkEntry)
    (r : FileInfo) :
    r ∈ (walkFn L extensions [] e).1 ↔
      e.err = none ∧ e.info.IsDir = false ∧ allowedPath L extensions e.path ∧
        ∃ hash, calculateMD5 L e.data = Except.ok hash ∧ r = recordOf e hash := by
  rw [← filter_skips_iff]
  unfold walkFn
  cases e.err with
  | some err => simp
  | none =>
    cases hdir : e.info.IsDir with
    | true => simp
    | false =>
      cases hflt : (decide (extensions.length > 0) &&
          !(extFound L (L.toLower (filepathExt e.path)) extensions)) with
      | true => simp [hflt]
      | false =>
        cases hmd : calculateMD5 L e.data with
        | error err => simp [hflt]
        | ok hash =>
          simp only [hflt]
          simp [recordOf]

theorem walkFn_nil_of_hash_error (L : StdLib) (extensions : List String) (e : WalkEntry)
    (err : String) (h : calculateMD5 L e.data = Except.error err) :
    (walkFn L extensions [] e).1 = [] := by
  apply List.eq_nil_iff_forall_not_mem.2
  intro r hr
  obtain ⟨_, _, _, hash, hh, _⟩ := (mem_walkFn_nil L extensions e r).1 hr
  rw [h] at hh
  cases hh

theorem walkFn_nil_of_readable (L : StdLib) (extensions : List String) (e : WalkEntry)
    (bytes : List Nat) (herr : e.err = none) (hdir : e.info.IsDir = false)
    (hdata : e.data = FileData.content bytes) (hallow : allowedPath L extensions e.path) :
    (walkFn L extensions [] e).1 = [recordOf e (L.md5hex bytes)] := by
  have hflt := (filter_skips_iff L extensions e.path).2 hallow
  unfold walkFn
  rw [herr]
  simp only [hdir, hflt, hdata, calculateMD5]
  simp [recordOf]

/-- Closed form of the walk in `scanDirectory`: the records of the entries
before the first walk error, and that error. -/
theorem filepathWalk_walkFn (L : StdLib) (extensions : List String)
    (entries : List WalkEntry) (files : List FileInfo) :
    filepathWalk (walkFn L extensions) entries files =
      (files ++ (entries.takeWhile (fun e => e.err.isNone)).flatMap
          (fun e => (walkFn L extensions [] e).1),
        ((entries.dropWhile (fun e => e.err.isNone)).head?).bind (fun e => e.err)) := by
  induction entries generalizing files with
  | nil => simp [filepathWalk]
  | cons e rest ih =>
    unfold filepathWalk
    rw [walkFn_eq]
    cases he : e.err with
    | some err => simp [he]
    | none => simp [he, ih, List.append_assoc]

theorem scanDirectory_eq (L : StdLib) (entries : List WalkEntry) (extensions : List String) :
    scanDirectory L entries extensions =
      ((entries.takeWhile (fun e => e.err.isNone)).flatMap
          (fun e => (walkFn L extensions [] e).1),
        ((entries.dropWhile (fun e => e.err.isNone)).head?).bind (fun e => e.err)) := by
  unfold scanDirectory
  rw [filepathWalk_walkFn]
  simp

theorem scanDirectory_no_walk_error (L : StdLib) (entries : List WalkEntry)
    (extensions : List String) (h : ∀ e ∈ entries, e.err = none) :
    scanDirectory L entries extensions =
      (entries.flatMap (fun e => (walkFn L extensions [] e).1), none) := by
  have h1 : entries.takeWhile (fun e => e.err.isNone) = entries := by
    apply List.takeWhile_eq_self_iff.2
    intro e he
    simp [h e he]
  have h2 : entries.dropWhile (fun e => e.err.isNone) = [] := by
    apply List.dropWhile_eq_nil_iff.2
    intro e he
    simp [h e he]
  rw [scanDirectory_eq, h1, h2]
  rfl

/-! ## Properties of `scanDirectory` -/

/-- C6: every record `scanDirectory` returns has a path that passes the
extension filter (the filter list is empty, or the lower-cased extension of
the path equals the lower-cased form of some filter); and in a traversal
without walk errors, a non-directory entry that can be read yields its
record if and only if its path passes the filter. -/
theorem C6_record_iff_extension_allowed (L : StdLib) (entries : List WalkEntry)
    (extensions : List String) :
    (∀ r ∈ (scanDirectory L entries extensions).1, allowedPath L extensions r.Path) ∧
    ((∀ e ∈ entries, e.err = none) →
      ∀ e ∈ entries, e.info.IsDir = false → ∀ bytes, e.data = FileData.content bytes →
        (recordOf e (L.md5hex bytes) ∈ (scanDirectory L entries extensions).1 ↔
          allowedPath L extensions e.path)) := by
  have hsound : ∀ r ∈ (scanDirectory L entries extensions).1,
      allowedPath L extensions r.Path := by
    intro r hr
    rw [scanDirectory_eq] at hr
    obtain ⟨e, _, hre⟩ := List.mem_flatMap.1 hr
    obtain ⟨_, _, hallow, hash, _, rfl⟩ := (mem_walkFn_nil L extensions e r).1 hre
    exact hallow
  refine ⟨hsound, ?_⟩
  intro hwalk e he hdir bytes hdata
  constructor
  · intro hr
    exact hsound _ hr
  · intro hallow
    rw [scanDirectory_no_walk_error L entries extensions hwalk]
    refine List.mem_flatMap.2 ⟨e, he, ?_⟩
    rw [walkFn_nil_of_readable L extensions e bytes (hwalk e he) hdir hdata hallow]
    exact List.mem_singleton_self _

/-- C6 on a tree with `a.txt`, `b.jpg`, `A.TXT` of equal content and the
filter `.txt`: the records are those of `A.TXT` and `a.txt`; `b.jpg` has no
record. -/
theorem C6_record_iff_extension_allowed_witness :
    (∀ e ∈ mixedTree, e.err = none) ∧
    ((scanDirectory sampleLib mixedTree [".txt"]).1.map (fun r => r.Path)
        = ["tree/A.TXT", "tree/a.txt"]) ∧
    recordOf (abcFile "tree/A.TXT" 3) (sampleLib.md5hex [97, 98, 99])
        ∈ (scanDirectory sampleLib mixedTree [".txt"]).1 ∧
    recordOf (abcFile "tree/b.jpg" 2) (sampleLib.md5hex [97, 98, 99])
        ∉ (scanDirectory sampleLib mixedTree [".txt"]).1 := by
  have h := (C6_record_iff_extension_allowed sampleLib mixedTree [".txt"]).2 (by decide)
  refine ⟨by decide, by decide, ?_, ?_⟩
  · exact (h (abcFile "tree/A.TXT" 3) (by decide) (by decide) [97, 98, 99] rfl).2 (by decide)
  · intro hmem
    have := (h (abcFile "tree/b.jpg" 2) (by decide) (by decide) [97, 98, 99] rfl).1 hmem
    revert this
    decide

/-- C7 fails as stated: in a tree with a symbolic link to a readable file
the result holds a record for the link, an entry that is not a regular
file. -/
theorem C7_symlink_yields_record :
    (∀ e ∈ linkTree, e.path = "tree/link" → e.info.kind = FileKind.symlink) ∧
    (∃ r ∈ (scanDirectory sampleLib linkTree []).1, r.Path = "tree/link") ∧
    ¬ (∀ r ∈ (scanDirectory sampleLib linkTree []).1,
        ∃ e ∈ linkTree, e.info.kind = FileKind.regular ∧ r.Path = e.path) := by
  refine ⟨by decide, by decide, by decide⟩

/-- C7 (amended): every record of `scanDirectory` is the record of an entry
the traversal visited without walk error, that is not a directory, whose
path passes the filter and whose hashing succeeded; the walk function never
appends a record for a directory entry; and an entry of any other kind
(regular file, symbolic link, device, pipe, socket) that can be opened and
read yields a record. -/
theorem C7_records_come_from_non_directories (L : StdLib) (entries : List WalkEntry)
    (extensions : List String) :
    (∀ r ∈ (scanDirectory L entries extensions).1,
      ∃ e ∈ entries, e.err = none ∧ e.info.kind ≠ FileKind.directory ∧
        allowedPath L extensions e.path ∧
        ∃ hash, calculateMD5 L e.data = Except.ok hash ∧ r = recordOf e hash) ∧
    (∀ e : WalkEntry, e.info.kind = FileKind.directory →
      ∀ files, (walkFn L extensions files e).1 = files) ∧
    (∀ (kind : FileKind) (path : String) (size modTime : Int) (bytes : List Nat),
      kind ≠ FileKind.directory →
      scanDirectory L [readableEntry kind path size modTime bytes] [] =
        ([{ Path := path, Size := size, Hash := L.md5hex bytes, Modified := modTime }],
          none)) := by
  refine ⟨?_, ?_, ?_⟩
  · intro r hr
    rw [scanDirectory_eq] at hr
    obtain ⟨e, he, hre⟩ := List.mem_flatMap.1 hr
    obtain ⟨herr, hdir, hallow, hash, hhash, hrec⟩ := (mem_walkFn_nil L extensions e r).1 hre
    refine ⟨e, (List.takeWhile_sublist _).subset he, herr, ?_, hallow, hash, hhash, hrec⟩
    intro hk
    simp [OsFileInfo.IsDir, hk] at hdir
  · intro e hk files
    rw [walkFn_eq]
    cases herr : e.err with
    | some err => rfl
    | none =>
      have : (walkFn L extensions [] e).1 = [] := by
        apply List.eq_nil_iff_forall_not_mem.2
        intro r hr
        have hdir := ((mem_walkFn_nil L extensions e r).1 hr).2.1
        simp [OsFileInfo.IsDir, hk] at hdir
      simp [this]
  · intro kind path size modTime bytes hk
    rw [scanDirectory_no_walk_error _ _ _ (by simp [readableEntry])]
    rw [List.flatMap_singleton]
    rw [walkFn_nil_of_readable L [] _ bytes rfl
      (by simp [readableEntry, OsFileInfo.IsDir, hk]) rfl (Or.inl rfl)]
    rfl

/-- C7 (amended) on the tree with the symbolic link: the two records are
those of the regular file and of the link. -/
theorem C7_records_come_from_non_directories_witness :
    (scanDirectory sampleLib linkTree []).1.map (fun r => r.Path)
        = ["tree/data.bin", "tree/link"] ∧
    ∀ r ∈ (scanDirectory sampleLib linkTree []).1,
      ∃ e ∈ linkTree, e.err = none ∧ e.info.kind ≠ FileKind.directory ∧
        allowedPath sampleLib [] e.path ∧
        ∃ hash, calculateMD5 sampleLib e.data = Except.ok hash ∧ r = recordOf e hash :=
  ⟨by decide, (C7_records_come_from_non_directories sampleLib linkTree []).1⟩

/-- C8: in a traversal without walk errors that visits a file whose open or
read fails, `scanDirectory` returns no error, the result is the one of the
traversal without that file (same records, same order), and any two other
entries that are readable files of equal content passing the filter end up
together in one group of `findDuplicates`. -/
theorem C8_unreadable_file_is_skipped (L : StdLib) (ord : MapOrder) (S : SliceSort)
    (pre post : List WalkEntry) (bad : WalkEntry) (extensions : List String)
    (hwalk : ∀ e ∈ pre ++ bad :: post, e.err = none)
    (hbad : ∃ err, bad.data = FileData.openError err ∨ bad.data = FileData.readError err) :
    (scanDirectory L (pre ++ bad :: post) extensions).2 = none ∧
    scanDirectory L (pre ++ bad :: post) extensions = scanDirectory L (pre ++ post) extensions ∧
    (∀ (a b c : List WalkEntry) (e₁ e₂ : WalkEntry) (bytes : List Nat),
      pre ++ post = a ++ e₁ :: (b ++ e₂ :: c) →
      e₁.info.IsDir = false → e₂.info.IsDir = false →
      e₁.data = FileData.content bytes → e₂.data = FileData.content bytes →
      allowedPath L extensions e₁.path → allowedPath L extensions e₂.path →
      ∃ g ∈ findDuplicates ord S (scanDirectory L (pre ++ bad :: post) extensions).1,
        g.Hash = L.md5hex bytes ∧ recordOf e₁ (L.md5hex bytes) ∈ g.Files ∧
          recordOf e₂ (L.md5hex bytes) ∈ g.Files) := by
  have hwalk' : ∀ e ∈ pre ++ post, e.err = none := by
    intro e he
    apply hwalk
    rcases List.mem_append.1 he with h | h
    · exact List.mem_append_left _ h
    · exact List.mem_append_right _ (List.mem_cons_of_mem _ h)
  have hbad' : (walkFn L extensions [] bad).1 = [] := by
    obtain ⟨err, h | h⟩ := hbad
    · exact walkFn_nil_of_hash_error L extensions bad err (by rw [h]; rfl)
    · exact walkFn_nil_of_hash_error L extensions bad err (by rw [h]; rfl)
  have heq : scanDirectory L (pre ++ bad :: post) extensions =
      scanDirectory L (pre ++ post) extensions := by
    rw [scanDirectory_no_walk_error _ _ _ hwalk, scanDirectory_no_walk_error _ _ _ hwalk']
    simp [List.flatMap_append, List.flatMap_cons, hbad']
  refine ⟨?_, heq, ?_⟩
  · rw [scanDirectory_no_walk_error _ _ _ hwalk]
  · intro a b c e₁ e₂ bytes hsplit hd₁ hd₂ hc₁ hc₂ ha₁ ha₂
    have he₁ : e₁ ∈ pre ++ post := by rw [hsplit]; simp
    have he₂ : e₂ ∈ pre ++ post := by rw [hsplit]; simp
    have hr₁ := walkFn_nil_of_readable L extensions e₁ bytes (hwalk' e₁ he₁) hd₁ hc₁ ha₁
    have hr₂ := walkFn_nil_of_readable L extensions e₂ bytes (hwalk' e₂ he₂) hd₂ hc₂ ha₂
    rw [heq, scanDirectory_no_walk_error _ _ _ hwalk', hsplit]
    simp only [List.flatMap_append, List.flatMap_cons, hr₁, hr₂]
    generalize a.flatMap (fun e => (walkFn L extensions [] e).1) = ra
    generalize b.flatMap (fun e => (walkFn L extensions [] e).1) = rb
    generalize c.flatMap (fun e => (walkFn L extensions [] e).1) = rc
    have hcount : 1 < ((ra ++ ([recordOf e₁ (L.md5hex bytes)] ++
        (rb ++ ([recordOf e₂ (L.md5hex bytes)] ++ rc)))).filter
          (fun f => decide (f.Hash = L.md5hex bytes))).length := by
      simp only [List.filter_append, List.length_append]
      simp [recordOf]
      omega
    obtain ⟨g, hg, hgk⟩ := findDuplicates_complete ord S _ (L.md5hex bytes) hcount
    refine ⟨g, hg, hgk, ?_, ?_⟩
    · rw [(findDuplicates_of_mem ord S _ g hg).1, List.mem_filter]
      exact ⟨by simp, by simp [hgk, recordOf]⟩
    · rw [(findDuplicates_of_mem ord S _ g hg).1, List.mem_filter]
      exact ⟨by simp, by simp [hgk, recordOf]⟩

/-- C8 on a tree with three identical readable files and a locked one: no
error, the locked file has no record, the three others form one group. -/
theorem C8_unreadable_file_is_skipped_witness :
    ((∀ e ∈ lockedTree, e.err = none) ∧
      ∃ err, (lockedTree.get ⟨2, by decide⟩).data = FileData.openError err ∨
        (lockedTree.get ⟨2, by decide⟩).data = FileData.readError err) ∧
    (scanDirectory sampleLib lockedTree []).2 = none ∧
    (scanDirectory sampleLib lockedTree []).1.map (fun r => r.Path)
        = ["tree/one", "tree/three", "tree/two"] ∧
    (findDuplicates insertionOrder insertionSlice
        (scanDirectory sampleLib lockedTree []).1).map (fun g => g.Count) = [3] := by
  refine ⟨⟨by decide, ⟨_, Or.inl rfl⟩⟩, ?_, by decide, by decide⟩
  exact (C8_unreadable_file_is_skipped sampleLib insertionOrder insertionSlice
    [treeDir, abcFile "tree/one" 1] [abcFile "tree/three" 3, abcFile "tree/two" 2]
    (lockedTree.get ⟨2, by decide⟩) [] (by decide) ⟨_, Or.inl rfl⟩).1

/-- C9: when the traversal reports an error for an entry, after entries
without walk error, `scanDirectory` returns exactly that error together with
the records of the entries before it: no record for the entry itself nor
for any entry after it, whatever those are. -/
theorem C9_walk_error_aborts_scan (L : StdLib) (pre post : List WalkEntry) (e : WalkEntry)
    (err : String) (extensions : List String)
    (hpre : ∀ x ∈ pre, x.err = none) (he : e.err = some err) :
    scanDirectory L (pre ++ e :: post) extensions =
      ((scanDirectory L pre extensions).1, some err) ∧
    (scanDirectory L pre extensions).2 = none ∧
    (∀ r ∈ (scanDirectory L (pre ++ e :: post) extensions).1,
      ∃ x ∈ pre, ∃ hash, calculateMD5 L x.data = Except.ok hash ∧ r = recordOf x hash) := by
  have htake : (pre ++ e :: post).takeWhile (fun x => x.err.isNone) = pre := by
    rw [List.takeWhile_append_of_pos (fun x hx => by simp [hpre x hx])]
    simp [List.takeWhile_cons, he]
  have hdrop : (pre ++ e :: post).dropWhile (fun x => x.err.isNone) = e :: post := by
    rw [List.dropWhile_append_of_pos (fun x hx => by simp [hpre x hx])]
    simp [List.dropWhile_cons, he]
  have h1 : scanDirectory L (pre ++ e :: post) extensions =
      ((scanDirectory L pre extensions).1, some err) := by
    rw [scanDirectory_eq, htake, hdrop, scanDirectory_no_walk_error _ _ _ hpre]
    simp [he]
  refine ⟨h1, by rw [scanDirectory_no_walk_error _ _ _ hpre], ?_⟩
  intro r hr
  rw [h1, scanDirectory_no_walk_error _ _ _ hpre] at hr
  obtain ⟨x, hx, hrx⟩ := List.mem_flatMap.1 hr
  obtain ⟨_, _, _, hash, hhash, hrec⟩ := (mem_walkFn_nil L extensions x r).1 hrx
  exact ⟨x, hx, hash, hhash, hrec⟩

/-- C9 on a tree whose sub-directory `private` cannot be listed: the scan
returns that error and the record of the one file visited before it. -/
theorem C9_walk_error_aborts_scan_witness :
    ((∀ x ∈ [treeDir, abcFile "tree/one" 1], x.err = none) ∧
      privateDir.err = some "open tree/private: permission denied") ∧
    scanDirectory sampleLib
        ([treeDir, abcFile "tree/one" 1] ++ privateDir :: [abcFile "tree/two" 2]) [] =
      ([recordOf (abcFile "tree/one" 1) (sampleLib.md5hex [97, 98, 99])],
        some "open tree/private: permission denied") := by
  refine ⟨⟨by decide, rfl⟩, ?_⟩
  exact ((C9_walk_error_aborts_scan sampleLib [treeDir, abcFile "tree/one" 1]
    [abcFile "tree/two" 2] privateDir "open tree/private: permission denied" []
    (by decide) rfl).1).trans (by decide)

/-! ## Properties of `main` -/

theorem collectGroups_perm {m₁ m₂ : List (String × List FileInfo)} (h : m₁.Perm m₂) :
    (collectGroups m₁).Perm (collectGroups m₂) := by
  induction h with
  | nil => exact List.Perm.refl _
  | cons x _ ih =>
    obtain ⟨k, v⟩ := x
    unfold collectGroups
    split
    · exact List.Perm.cons _ ih
    · exact ih
  | swap x y l =>
    obtain ⟨k, v⟩ := x
    obtain ⟨k2, v2⟩ := y
    simp only [collectGroups]
    split <;> split
    · exact List.Perm.swap _ _ _
    · exact List.Perm.refl _
    · exact List.Perm.refl _
    · exact List.Perm.refl _
  | trans _ _ ih₁ ih₂ => exact ih₁.trans ih₂

theorem findDuplicates_sorted_by_size (ord : MapOrder) (S : SliceSort)
    (files : List FileInfo) :
    (findDuplicates ord S files).Pairwise (fun a b => a.Size ≥ b.Size) := by
  have hs := S.sorted sizeGreater sizeGreater_strictWeak
    (collectGroups (ord.iterate (groupByHash files)))
  refine List.Pairwise.imp ?_ hs
  intro a b hab
  simp only [sizeGreater, decide_eq_false_iff_not] at hab
  omega

theorem findDuplicates_perm_runs (ord₁ ord₂ : MapOrder) (S₁ S₂ : SliceSort)
    (files : List FileInfo) :
    (findDuplicates ord₁ S₁ files).Perm (findDuplicates ord₂ S₂ files) := by
  have h₁ := findDuplicates_perm ord₁ S₁ files
  have h₂ := findDuplicates_perm ord₂ S₂ files
  have hm : (ord₁.iterate (groupByHash files)).Perm (ord₂.iterate (groupByHash files)) :=
    (ord₁.perm _).trans (ord₂.perm _).symm
  exact h₁.trans ((collectGroups_perm hm).trans h₂.symm)

theorem findDuplicates_first_size (ord : MapOrder) (S : SliceSort) (files : List FileInfo)
    (g : DuplicateGroup) (hg : g ∈ findDuplicates ord S files) :
    ∃ first rest, g.Files = first :: rest ∧ g.Size = first.Size := by
  obtain ⟨_, hlen, _, hsize⟩ := findDuplicates_of_mem ord S files g hg
  cases hf : g.Files with
  | nil => rw [hf] at hlen; simp at hlen
  | cons first rest =>
    rw [hf] at hsize
    exact ⟨first, rest, rfl, by simpa using hsize⟩

/-- C11 fails as stated: the one group `findDuplicates` returns for three
sample files holds `new.txt` (modified at 20) in front of `old.txt`
(modified at 10), the order of the input. -/
theorem C11_members_not_sorted_by_time :
    findDuplicates insertionOrder insertionSlice sampleFiles = [sampleGroup] ∧
    sampleGroup.Files.map (fun f => f.Modified) = [20, 10] ∧
    ¬ ∀ g ∈ findDuplicates insertionOrder insertionSlice sampleFiles,
        g.Files.Pairwise (fun a b => a.Modified ≤ b.Modified) := by
  refine ⟨by decide, by decide, by decide⟩

/-- C12 fails as stated: in a tree with a file and a symbolic link to it the
two records have one hash and the sizes 3 (the file) and 8 (the link); the
group has the size 3 of its first member. -/
theorem C12_group_size_is_first_member_size :
    (findDuplicates insertionOrder insertionSlice
        (scanDirectory sampleLib linkTree []).1).map
      (fun g => (g.Size, g.Files.map (fun f => f.Size))) = [(3, [3, 8])] ∧
    ¬ ∀ g ∈ findDuplicates insertionOrder insertionSlice
          (scanDirectory sampleLib linkTree []).1,
        ∀ f ∈ g.Files, f.Size = g.Size := by
  refine ⟨by decide, by decide⟩

/-- C12 (amended): the `Size` of every group returned by `findDuplicates` is
the `Size` of its first member; when records of the input with equal `Hash`
have equal `Size`, it is the `Size` of every member. -/
theorem C12_group_size_shared_when_hash_fixes_size (ord : MapOrder) (S : SliceSort)
    (files : List FileInfo) :
    (∀ g ∈ findDuplicates ord S files,
      ∃ first rest, g.Files = first :: rest ∧ g.Size = first.Size) ∧
    ((∀ a ∈ files, ∀ b ∈ files, a.Hash = b.Hash → a.Size = b.Size) →
      ∀ g ∈ findDuplicates ord S files, ∀ f ∈ g.Files, f.Size = g.Size) := by
  refine ⟨findDuplicates_first_size ord S files, ?_⟩
  intro hsize g hg f hf
  obtain ⟨first, rest, hfiles, hfirst⟩ := findDuplicates_first_size ord S files g hg
  have hmem : ∀ x ∈ g.Files, x ∈ files ∧ x.Hash = g.Hash := by
    intro x hx
    rw [(findDuplicates_of_mem ord S files g hg).1, List.mem_filter] at hx
    exact ⟨hx.1, by simpa using hx.2⟩
  have h1 := hmem first (by rw [hfiles]; exact List.mem_cons_self _ _)
  have h2 := hmem f hf
  rw [hfirst]
  exact hsize f h2.1 first h1.1 (h2.2.trans h1.2.symm)

/-- C12 (amended) on the sample files, where equal hashes come with equal
sizes: both members of the group have the group's size 3. -/
theorem C12_group_size_shared_when_hash_fixes_size_witness :
    (∀ a ∈ sampleFiles, ∀ b ∈ sampleFiles, a.Hash = b.Hash → a.Size = b.Size) ∧
    sampleGroup ∈ findDuplicates insertionOrder insertionSlice sampleFiles ∧
    ∀ f ∈ sampleGroup.Files, f.Size = sampleGroup.Size :=
  ⟨by decide, by decide,
    (C12_group_size_shared_when_hash_fixes_size insertionOrder insertionSlice sampleFiles).2
      (by decide) sampleGroup (by decide)⟩

/-- C13 fails as stated: for two pairs of duplicates of equal size, two runs
that differ in the order in which the map is iterated return the two groups
in different orders. -/
theorem C13_tie_order_follows_map_iteration :
    (findDuplicates insertionOrder insertionSlice tieFiles).map (fun g => (g.Hash, g.Size)) =
      [("aaaaaaaaaaaaaaaaaaaaaaaaaaaaaaaa", 4), ("bbbbbbbbbbbbbbbbbbbbbbbbbbbbbbbb", 4)] ∧
    (findDuplicates reverseOrder insertionSlice tieFiles).map (fun g => (g.Hash, g.Size)) =
      [("bbbbbbbbbbbbbbbbbbbbbbbbbbbbbbbb", 4), ("aaaaaaaaaaaaaaaaaaaaaaaaaaaaaaaa", 4)] ∧
    findDuplicates insertionOrder insertionSlice tieFiles ≠
      findDuplicates reverseOrder insertionSlice tieFiles := by
  refine ⟨by decide, by decide, by decide⟩

/-- C13 (amended): for a fixed input list, two runs of `findDuplicates`
(whatever the map iteration order and the sort implementation) return the
same groups, as permutations of each other, with the same sequence of sizes;
groups of equal `Size` may change places, and when no two groups have the
same `Size` the two runs return the same sequence. -/
theorem C13_runs_agree_up_to_ties (ord₁ ord₂ : MapOrder) (S₁ S₂ : SliceSort)
    (files : List FileInfo) :
    (findDuplicates ord₁ S₁ files).Perm (findDuplicates ord₂ S₂ files) ∧
    (findDuplicates ord₁ S₁ files).map (fun g => g.Size) =
      (findDuplicates ord₂ S₂ files).map (fun g => g.Size) ∧
    (((findDuplicates ord₁ S₁ files).map (fun g => g.Size)).Nodup →
      findDuplicates ord₁ S₁ files = findDuplicates ord₂ S₂ files) := by
  have hperm := findDuplicates_perm_runs ord₁ ord₂ S₁ S₂ files
  have hs₁ := findDuplicates_sorted_by_size ord₁ S₁ files
  have hs₂ := findDuplicates_sorted_by_size ord₂ S₂ files
  have hsizes : (findDuplicates ord₁ S₁ files).map (fun g => g.Size) =
      (findDuplicates ord₂ S₂ files).map (fun g => g.Size) := by
    apply List.eq_of_perm_of_sorted (r := fun a b : Int => a ≥ b) (hperm.map _)
    · exact List.pairwise_map.2 hs₁
    · exact List.pairwise_map.2 hs₂
  refine ⟨hperm, hsizes, ?_⟩
  intro hnd
  have hnd₂ : ((findDuplicates ord₂ S₂ files).map (fun g => g.Size)).Nodup := hsizes ▸ hnd
  have strict : ∀ l : List DuplicateGroup, l.Pairwise (fun a b => a.Size ≥ b.Size) →
      (l.map (fun g => g.Size)).Nodup → l.Pairwise (fun a b => a.Size > b.Size) := by
    intro l hl hn
    have hne : l.Pairwise (fun a b => a.Size ≠ b.Size) := List.pairwise_map.1 hn
    refine (hl.and hne).imp ?_
    intro a b hab
    have h1 := hab.1
    have h2 := hab.2
    omega
  haveI : IsAntisymm DuplicateGroup (fun a b => a.Size > b.Size) :=
    ⟨fun a b h1 h2 => absurd h1 (by omega)⟩
  exact List.eq_of_perm_of_sorted hperm (strict _ hs₁ hnd) (strict _ hs₂ hnd₂)

/-- C13 (amended) on two pairs of duplicates of the sizes 1 and 100: no two
groups have the same size, and the two iteration orders of the map, which
hand the groups to the sort in opposite orders, return the same sequence,
the group of size 100 in front of the group of size 1. -/
theorem C13_runs_agree_up_to_ties_witness :
    ((findDuplicates insertionOrder insertionSlice twoSizeFiles).map
        (fun g => g.Size)).Nodup ∧
    (collectGroups (insertionOrder.iterate (groupByHash twoSizeFiles))).map
        (fun g => g.Size) = [1, 100] ∧
    (collectGroups (reverseOrder.iterate (groupByHash twoSizeFiles))).map
        (fun g => g.Size) = [100, 1] ∧
    (findDuplicates insertionOrder insertionSlice twoSizeFiles).map
        (fun g => (g.Hash, g.Size)) =
      [("dddddddddddddddddddddddddddddddd", 100), ("cccccccccccccccccccccccccccccccc", 1)] ∧
    findDuplicates insertionOrder insertionSlice twoSizeFiles =
      findDuplicates reverseOrder insertionSlice twoSizeFiles :=
  ⟨by decide, by decide, by decide, by decide,
    (C13_runs_agree_up_to_ties insertionOrder reverseOrder insertionSlice insertionSlice
      twoSizeFiles).2.2 (by decide)⟩

/-- C16: the `Files` of every group returned by `findDuplicates` is the
sub-sequence of the input made of the records with the group's `Hash`, in
the order of the input, and the group's `Size` is the `Size` of the first
record of the input with that `Hash`. -/
theorem C16_members_in_input_order (ord : MapOrder) (S : SliceSort) (files : List FileInfo) :
    ∀ g ∈ findDuplicates ord S files,
      g.Files = files.filter (fun f => decide (f.Hash = g.Hash)) ∧
      g.Files.Sublist files ∧
      (files.find? (fun f => decide (f.Hash = g.Hash))).map (fun f => f.Size) =
        some g.Size := by
  intro g hg
  obtain ⟨hfiles, _, _, _⟩ := findDuplicates_of_mem ord S files g hg
  obtain ⟨first, rest, hcons, hfirst⟩ := findDuplicates_first_size ord S files g hg
  refine ⟨hfiles, ?_, ?_⟩
  · rw [hfiles]
    exact List.filter_sublist _
  · rw [← List.filter_head?, ← hfiles, hcons, hfirst]
    rfl

/-- C16 on the sample files: the group lists `new.txt` before `old.txt`, as
the input does, and has the size of `new.txt`. -/
theorem C16_members_in_input_order_witness :
    sampleGroup ∈ findDuplicates insertionOrder insertionSlice sampleFiles ∧
    (sampleGroup.Files = sampleFiles.filter (fun f => decide (f.Hash = sampleGroup.Hash)) ∧
      sampleGroup.Files.Sublist sampleFiles ∧
      (sampleFiles.find? (fun f => decide (f.Hash = sampleGroup.Hash))).map
        (fun f => f.Size) = some sampleGroup.Size) :=
  ⟨by decide,
    C16_members_in_input_order insertionOrder insertionSlice sampleFiles sampleGroup
      (by decide)⟩

/-! ## `printResults` on the groups of `findDuplicates` -/

theorem markFiles_map_snd (j : Nat) (l : List FileInfo) :
    (markFiles j l).map (fun x => x.2) = l := by
  induction l generalizing j with
  | nil => rfl
  | cons f rest ih => simp [markFiles, ih]

/-- On groups whose hashes have at least 8 bytes `printResults` ends without
a panic; it reports each group with its files sorted by modification time
and its figure, and a total, if printed, is the wrapped sum of the
figures. -/
theorem printResults_ok (S : SliceSort) (duplicates : List DuplicateGroup)
    (showDetails : Bool) (h : ∀ g ∈ duplicates, 8 ≤ g.Hash.utf8ByteSize) :
    ∃ out, printResults S duplicates showDetails = some out ∧
      List.Forall₂ (fun g r => r.lines = markFiles 0 (S.sort modifiedBefore g.Files) ∧
        r.wastedSpace = wrapInt64 (g.Size * (g.Count - 1))) duplicates out.groups ∧
      (∀ total, out.total = some total →
        total = wrapInt64 ((duplicates.map (fun g => g.Size * (g.Count - 1))).sum)) := by
  by_cases hd : duplicates.length = 0
  · have : duplicates = [] := List.length_eq_zero.1 hd
    subst this
    refine ⟨Output.noDuplicates, by simp [printResults], by simp [Output.groups], ?_⟩
    intro total ht
    simp [Output.total] at ht
  · obtain ⟨rs, T, hloop, hT, hrange, hall⟩ := reportLoop_ok S duplicates h 0 0
    refine ⟨Output.results rs duplicates.length T, by simp [printResults, hd, hloop], hall, ?_⟩
    intro total ht
    simp only [Output.total, Option.some.injEq] at ht
    rw [← ht, ← hrange (by decide), hT, Int.zero_add]

theorem findDuplicates_hash_bytes (ord : MapOrder) (S : SliceSort) (files : List FileInfo)
    (hhash : ∀ f ∈ files, 8 ≤ f.Hash.utf8ByteSize) :
    ∀ g ∈ findDuplicates ord S files, 8 ≤ g.Hash.utf8ByteSize := by
  intro g hg
  obtain ⟨first, rest, hfiles, _⟩ := findDuplicates_first_size ord S files g hg
  have hmem : first ∈ files.filter (fun f => decide (f.Hash = g.Hash)) := by
    rw [← (findDuplicates_of_mem ord S files g hg).1, hfiles]
    exact List.mem_cons_self _ _
  rw [List.mem_filter] at hmem
  have heq : first.Hash = g.Hash := by simpa using hmem.2
  rw [← heq]
  exact hhash first hmem.1

theorem sum_sizes_of_equal (c : Int) (l : List FileInfo) (h : ∀ f ∈ l, f.Size = c) :
    (l.map (fun f => f.Size)).sum = c * (l.length : Int) := by
  induction l with
  | nil => simp
  | cons f rest ih =>
    rw [List.map_cons, List.sum_cons, ih (fun x hx => h x (List.mem_cons_of_mem _ hx)),
      h f (List.mem_cons_self _ _), List.length_cons]
    push_cast
    ring

/-- The sizes of the files marked removable in the report of a group whose
members all have the group's size add up to `Size × (Count − 1)`. -/
theorem removable_sum_of_group (S : SliceSort) (g : DuplicateGroup) (r : GroupReport)
    (hlines : r.lines = markFiles 0 (S.sort modifiedBefore g.Files))
    (hcount : g.Count = (g.Files.length : Int)) (hlen : 1 < g.Files.length)
    (hsz : ∀ f ∈ g.Files, f.Size = g.Size) :
    ((r.lines.filter (fun l => decide (l.1 = Status.removable))).map
      (fun l => l.2.Size)).sum = g.Size * (g.Count - 1) := by
  have hperm := S.perm modifiedBefore g.Files
  cases hs : S.sort modifiedBefore g.Files with
  | nil =>
    rw [hs] at hperm
    have := hperm.length_eq
    simp only [List.length_nil] at this
    omega
  | cons first rest =>
    rw [hs] at hperm
    have hlen' : rest.length + 1 = g.Files.length := by simpa using hperm.length_eq
    have hrest : ∀ f ∈ rest, f.Size = g.Size := fun f hf =>
      hsz f (hperm.subset (List.mem_cons_of_mem _ hf))
    rw [hlines, hs, markFiles_zero_cons]
    have hfilter : ((Status.keep, first) :: rest.map (fun f => (Status.removable, f))).filter
        (fun l => decide (l.1 = Status.removable)) =
          rest.map (fun f => (Status.removable, f)) := by
      rw [List.filter_cons]
      simp only [reduceCtorEq, decide_False, Bool.false_eq_true, if_false]
      apply List.filter_eq_self.2
      intro x hx
      obtain ⟨f, _, rfl⟩ := List.mem_map.1 hx
      simp
    rw [hfilter, List.map_map]
    have : ((fun l : Status × FileInfo => l.2.Size) ∘ fun f => (Status.removable, f)) =
        fun f : FileInfo => f.Size := rfl
    rw [this, sum_sizes_of_equal g.Size rest hrest, hcount, ← hlen']
    push_cast
    ring

/-- C11 (amended): `findDuplicates` leaves the members of every group in the
order of the input; the ascending order by modification time is produced by
`printResults`, which (for hashes of at least 8 bytes) lists for each group
its members, all of them, oldest first. -/
theorem C11_members_in_input_order_sorted_when_printed (ord : MapOrder) (S : SliceSort)
    (files : List FileInfo) (showDetails : Bool)
    (hhash : ∀ f ∈ files, 8 ≤ f.Hash.utf8ByteSize) :
    (∀ g ∈ findDuplicates ord S files,
      g.Files = files.filter (fun f => decide (f.Hash = g.Hash))) ∧
    ∃ out, printResults S (findDuplicates ord S files) showDetails = some out ∧
      List.Forall₂ (fun g r =>
          (r.lines.map (fun l => l.2)).Perm g.Files ∧
          (r.lines.map (fun l => l.2)).Pairwise (fun a b => a.Modified ≤ b.Modified))
        (findDuplicates ord S files) out.groups := by
  refine ⟨fun g hg => (findDuplicates_of_mem ord S files g hg).1, ?_⟩
  obtain ⟨out, hout, hall, _⟩ := printResults_ok S (findDuplicates ord S files) showDetails
    (findDuplicates_hash_bytes ord S files hhash)
  refine ⟨out, hout, forall₂_imp_of_mem hall ?_⟩
  intro g _ r hr
  rw [hr.1, markFiles_map_snd]
  refine ⟨S.perm _ _, ?_⟩
  refine List.Pairwise.imp ?_ (S.sorted modifiedBefore modifiedBefore_strictWeak g.Files)
  intro a b hab
  simp only [modifiedBefore, decide_eq_false_iff_not] at hab
  omega

/-- C11 (amended) on the sample files: the group holds `new.txt` before
`old.txt`, the printed lines `old.txt` before `new.txt`. -/
theorem C11_members_in_input_order_sorted_when_printed_witness :
    (∀ f ∈ sampleFiles, 8 ≤ f.Hash.utf8ByteSize) ∧
    (findDuplicates insertionOrder insertionSlice sampleFiles).map
        (fun g => g.Files.map (fun f => f.Path)) = [["new.txt", "old.txt"]] ∧
    (printResults insertionSlice (findDuplicates insertionOrder insertionSlice sampleFiles)
        false).map (fun out => out.groups.map (fun r => r.lines.map (fun l => l.2.Path))) =
      some [["old.txt", "new.txt"]] ∧
    ∃ out, printResults insertionSlice
        (findDuplicates insertionOrder insertionSlice sampleFiles) false = some out ∧
      List.Forall₂ (fun g r =>
          (r.lines.map (fun l => l.2)).Perm g.Files ∧
          (r.lines.map (fun l => l.2)).Pairwise (fun a b => a.Modified ≤ b.Modified))
        (findDuplicates insertionOrder insertionSlice sampleFiles) out.groups :=
  ⟨by decide, by decide, by decide,
    (C11_members_in_input_order_sorted_when_printed insertionOrder insertionSlice sampleFiles
      false (by decide)).2⟩

/-- C14 fails as stated: for three files of 2^62 bytes with one hash the two
files marked removable occupy 2^63 bytes, and the total `printResults`
computes in `int64` is -2^63. -/
theorem C14_total_wraps_in_int64 :
    (∀ a ∈ hugeGroup.Files, ∀ b ∈ hugeGroup.Files, a.Hash = b.Hash → a.Size = b.Size) ∧
    (printResults insertionSlice
        (findDuplicates insertionOrder insertionSlice hugeGroup.Files) false).map
      removableBytes = some (2 ^ 63) ∧
    (printResults insertionSlice
        (findDuplicates insertionOrder insertionSlice hugeGroup.Files) false).bind
      Output.total = some (-(2 ^ 63)) := by
  refine ⟨by decide, by decide, by decide⟩

/-- On a non-empty sequence of groups whose hashes have at least 8 bytes
`printResults` prints the statistics: reports of the groups, their number
and a total. -/
theorem printResults_prints_total (S : SliceSort) (duplicates : List DuplicateGroup)
    (showDetails : Bool) (h : ∀ g ∈ duplicates, 8 ≤ g.Hash.utf8ByteSize)
    (hne : duplicates ≠ []) :
    ∃ reports total, printResults S duplicates showDetails =
      some (Output.results reports duplicates.length total) := by
  have hd : ¬ duplicates.length = 0 := fun h0 => hne (List.length_eq_zero.1 h0)
  obtain ⟨rs, T, hloop, _, _, _⟩ := reportLoop_ok S duplicates h 0 0
  exact ⟨rs, T, by simp [printResults, hd, hloop]⟩

/-- In the report of a group with at least one file, the lines marked
removable are `len(Files) − 1` in number. -/
theorem removable_count_of_group (S : SliceSort) (g : DuplicateGroup) (r : GroupReport)
    (hlines : r.lines = markFiles 0 (S.sort modifiedBefore g.Files))
    (hcount : g.Count = (g.Files.length : Int)) (hlen : 1 < g.Files.length) :
    ((r.lines.filter (fun l => decide (l.1 = Status.removable))).length : Int) =
      g.Count - 1 := by
  have hperm := S.perm modifiedBefore g.Files
  cases hs : S.sort modifiedBefore g.Files with
  | nil =>
    rw [hs] at hperm
    have := hperm.length_eq
    simp only [List.length_nil] at this
    omega
  | cons first rest =>
    rw [hs] at hperm
    have hlen' : rest.length + 1 = g.Files.length := by simpa using hperm.length_eq
    rw [hlines, hs, markFiles_zero_cons]
    have hfilter : ((Status.keep, first) :: rest.map (fun f => (Status.removable, f))).filter
        (fun l => decide (l.1 = Status.removable)) =
          rest.map (fun f => (Status.removable, f)) := by
      rw [List.filter_cons]
      simp only [reduceCtorEq, decide_False, Bool.false_eq_true, if_false]
      apply List.filter_eq_self.2
      intro x hx
      obtain ⟨f, _, rfl⟩ := List.mem_map.1 hx
      simp
    rw [hfilter, List.length_map, hcount, ← hlen']
    push_cast
    ring

/-- C14 (amended): for every list of file records in which records with
equal `Hash` have equal `Size` (and hashes have at least 8 bytes),
`printResults` ends normally on the groups of `findDuplicates`. When there
is no group it prints the no-duplicates message and no total. When there
are groups it reports each of them with all its members, `Count − 1` of them
marked removable and occupying `Size × (Count − 1)` bytes, and it prints a
total: the sum of the sizes of all members marked removable, reduced to the
`int64` range, and exactly that sum whenever the sum lies in the `int64`
range. -/
theorem C14_total_is_size_of_removable_files (ord : MapOrder) (S : SliceSort)
    (files : List FileInfo) (showDetails : Bool)
    (hsize : ∀ a ∈ files, ∀ b ∈ files, a.Hash = b.Hash → a.Size = b.Size)
    (hhash : ∀ f ∈ files, 8 ≤ f.Hash.utf8ByteSize) :
    ∃ out, printResults S (findDuplicates ord S files) showDetails = some out ∧
      List.Forall₂ (fun g r =>
          (r.lines.map (fun l => l.2)).Perm g.Files ∧
          ((r.lines.filter (fun l => decide (l.1 = Status.removable))).length : Int)
            = g.Count - 1 ∧
          ((r.lines.filter (fun l => decide (l.1 = Status.removable))).map
            (fun l => l.2.Size)).sum = g.Size * (g.Count - 1))
        (findDuplicates ord S files) out.groups ∧
      (findDuplicates ord S files = [] → out = Output.noDuplicates ∧ out.total = none) ∧
      (findDuplicates ord S files ≠ [] →
        ∃ total, out.total = some total ∧
          total = wrapInt64 (removableBytes out) ∧
          (-(2 ^ 63) ≤ removableBytes out → removableBytes out < 2 ^ 63 →
            total = removableBytes out)) := by
  have hbytes := findDuplicates_hash_bytes ord S files hhash
  obtain ⟨out, hout, hall, htotal⟩ := printResults_ok S (findDuplicates ord S files)
    showDetails hbytes
  have hmembers : ∀ g ∈ findDuplicates ord S files, ∀ f ∈ g.Files, f.Size = g.Size := by
    intro g hg f hf
    obtain ⟨hfiles, _, _, _⟩ := findDuplicates_of_mem ord S files g hg
    obtain ⟨first, rest, hcons, hfirst⟩ := findDuplicates_first_size ord S files g hg
    have hmem : ∀ x ∈ g.Files, x ∈ files ∧ x.Hash = g.Hash := by
      intro x hx
      rw [hfiles, List.mem_filter] at hx
      exact ⟨hx.1, by simpa using hx.2⟩
    have h1 := hmem first (by rw [hcons]; exact List.mem_cons_self _ _)
    have h2 := hmem f hf
    rw [hfirst]
    exact hsize f h2.1 first h1.1 (h2.2.trans h1.2.symm)
  have hgroups : List.Forall₂ (fun g r =>
      (r.lines.map (fun l => l.2)).Perm g.Files ∧
      ((r.lines.filter (fun l => decide (l.1 = Status.removable))).length : Int)
        = g.Count - 1 ∧
      ((r.lines.filter (fun l => decide (l.1 = Status.removable))).map
        (fun l => l.2.Size)).sum = g.Size * (g.Count - 1))
      (findDuplicates ord S files) out.groups := by
    refine forall₂_imp_of_mem hall ?_
    intro g hg r hr
    obtain ⟨_, hlen, hcount, _⟩ := findDuplicates_of_mem ord S files g hg
    refine ⟨?_, removable_count_of_group S g r hr.1 hcount hlen,
      removable_sum_of_group S g r hr.1 hcount hlen (hmembers g hg)⟩
    rw [hr.1, markFiles_map_snd]
    exact S.perm _ _
  have hsum : removableBytes out =
      ((findDuplicates ord S files).map (fun g => g.Size * (g.Count - 1))).sum := by
    unfold removableBytes
    congr 1
    apply map_eq_of_forall₂
    exact forall₂_imp_of_mem hgroups (fun _ _ _ h => h.2.2)
  refine ⟨out, hout, hgroups, ?_, ?_⟩
  · intro hnil
    rw [hnil] at hout
    have hnone : printResults S [] showDetails = some Output.noDuplicates := by
      simp [printResults]
    rw [hnone] at hout
    have : out = Output.noDuplicates := (Option.some.inj hout).symm
    subst this
    exact ⟨rfl, rfl⟩
  · intro hne
    obtain ⟨reports, total, hres⟩ := printResults_prints_total S (findDuplicates ord S files)
      showDetails hbytes hne
    rw [hres] at hout
    have hout' : out = Output.results reports (findDuplicates ord S files).length total :=
      (Option.some.inj hout).symm
    have ht : out.total = some total := by rw [hout']; rfl
    have h := htotal total ht
    rw [← hsum] at h
    exact ⟨total, ht, h, fun h1 h2 => h.trans (wrapInt64_of_range _ h1 h2)⟩

/-- C14 (amended) on a group of three files of 10 bytes and a group of two
files of 7 bytes: the files marked removable are `x3`, `x1` and `y1`, they
occupy 20 + 7 bytes, and the total printed is 27. -/
theorem C14_total_is_size_of_removable_files_witness :
    ((∀ a ∈ reclaimFiles, ∀ b ∈ reclaimFiles, a.Hash = b.Hash → a.Size = b.Size) ∧
      (∀ f ∈ reclaimFiles, 8 ≤ f.Hash.utf8ByteSize) ∧
      findDuplicates insertionOrder insertionSlice reclaimFiles ≠ []) ∧
    (printResults insertionSlice (findDuplicates insertionOrder insertionSlice reclaimFiles)
        false).map (fun out => out.groups.map (fun r =>
          (r.lines.filter (fun l => decide (l.1 = Status.removable))).map
            (fun l => l.2.Path))) = some [["x3", "x1"], ["y1"]] ∧
    (printResults insertionSlice (findDuplicates insertionOrder insertionSlice reclaimFiles)
        false).map (fun out => (out.total, removableBytes out)) = some (some 27, 27) ∧
    ∃ out, printResults insertionSlice
        (findDuplicates insertionOrder insertionSlice reclaimFiles) false = some out ∧
      ∃ total, out.total = some total ∧
        total = wrapInt64 (removableBytes out) ∧
        (-(2 ^ 63) ≤ removableBytes out → removableBytes out < 2 ^ 63 →
          total = removableBytes out) := by
  refine ⟨⟨by decide, by decide, by decide⟩, by decide, by decide, ?_⟩
  obtain ⟨out, hout, _, _, hsome⟩ :=
    C14_total_is_size_of_removable_files insertionOrder insertionSlice reclaimFiles false
      (by decide) (by decide)
  exact ⟨out, hout, hsome (by decide)⟩

/-! ## Normalisation of the extension filters -/

theorem trimLeft_eq_dropWhile (l : List Char) : trimLeft l = l.dropWhile isSpace := by
  induction l with
  | nil => rfl
  | cons c cs ih =>
    unfold trimLeft
    by_cases h : isSpace c = true
    · simp [h, ih, List.dropWhile_cons]
    · simp [h, List.dropWhile_cons]

theorem trimLeft_head (l : List Char) (c : Char) (h : (trimLeft l).head? = some c) :
    isSpace c = false := by
  have := List.head?_dropWhile_not isSpace l
  rw [← trimLeft_eq_dropWhile, h] at this
  simpa using this

theorem trimLeft_of_head (l : List Char) (h : ∀ c, l.head? = some c → isSpace c = false) :
    trimLeft l = l := by
  cases l with
  | nil => rfl
  | cons c cs =>
    have := h c rfl
    simp [trimLeft, this]

/-- The characters of `trimSpace s`: a list whose first and last character,
if any, are not white space. -/
theorem trimSpace_ends (s : String) :
    (∀ c, (trimSpace s).data.head? = some c → isSpace c = false) ∧
    (∀ c, (trimSpace s).data.getLast? = some c → isSpace c = false) := by
  have hdata : (trimSpace s).data = (trimLeft (trimLeft s.data).reverse).reverse := rfl
  constructor
  · intro c hc
    rw [hdata, List.head?_reverse] at hc
    have hsuffix : (trimLeft (trimLeft s.data).reverse) <:+ (trimLeft s.data).reverse := by
      rw [trimLeft_eq_dropWhile (trimLeft s.data).reverse]
      exact List.dropWhile_suffix _
    have hne : trimLeft (trimLeft s.data).reverse ≠ [] := by
      intro h
      rw [h] at hc
      cases hc
    have hlast := hsuffix.getLast hne
    rw [List.getLast?_eq_getLast _ hne, hlast] at hc
    have hne2 : (trimLeft s.data).reverse ≠ [] := by
      intro h
      apply hne
      rw [h]
      rfl
    have hhead : (trimLeft s.data).head? = some c := by
      rw [← List.getLast?_reverse, List.getLast?_eq_getLast _ hne2]
      exact hc
    exact trimLeft_head _ _ hhead
  · intro c hc
    rw [hdata, List.getLast?_reverse] at hc
    exact trimLeft_head _ _ hc

theorem trimSpace_of_ends (s : String)
    (h1 : ∀ c, s.data.head? = some c → isSpace c = false)
    (h2 : ∀ c, s.data.getLast? = some c → isSpace c = false) : trimSpace s = s := by
  have e1 : trimLeft s.data = s.data := trimLeft_of_head _ h1
  have e2 : trimLeft s.data.reverse = s.data.reverse :=
    trimLeft_of_head _ (fun c hc => h2 c (by rw [← List.head?_reverse]; exact hc))
  unfold trimSpace
  rw [e1, e2, List.reverse_reverse]

theorem hasDotPrefix_iff (s : String) : hasDotPrefix s = true ↔ s.data.head? = some '.' := by
  unfold hasDotPrefix
  cases s.data with
  | nil => simp
  | cons c cs => simp

theorem normalizeExt_of_normal (s : String) (htrim : trimSpace s = s)
    (hdot : hasDotPrefix s = true) : normalizeExt s = s := by
  unfold normalizeExt
  simp only [htrim, hdot, Bool.not_true, Bool.false_eq_true, if_false]

/-- C15: for every input string the normalised filter begins with `.`, its
first and its last character are not white space, and normalising it again
leaves it unchanged. -/
theorem C15_normalizeExt_dotted_trimmed_idempotent (ext : String) :
    (normalizeExt ext).data.head? = some '.' ∧
    (∀ c, (normalizeExt ext).data.head? = some c → isSpace c = false) ∧
    (∀ c, (normalizeExt ext).data.getLast? = some c → isSpace c = false) ∧
    normalizeExt (normalizeExt ext) = normalizeExt ext := by
  have hends := trimSpace_ends ext
  have hhead : (normalizeExt ext).data.head? = some '.' := by
    unfold normalizeExt
    by_cases h : hasDotPrefix (trimSpace ext) = true
    · simpa [h] using (hasDotPrefix_iff _).1 h
    · simp [h]
  have hfirst : ∀ c, (normalizeExt ext).data.head? = some c → isSpace c = false := by
    intro c hc
    rw [hhead] at hc
    cases hc
    decide
  have hlast : ∀ c, (normalizeExt ext).data.getLast? = some c → isSpace c = false := by
    intro c hc
    unfold normalizeExt at hc
    by_cases h : hasDotPrefix (trimSpace ext) = true
    · simp only [h, Bool.not_true, Bool.false_eq_true, if_false] at hc
      exact hends.2 c hc
    · simp only [h, Bool.not_false, if_true, String.data_append] at hc
      cases ht : (trimSpace ext).data with
      | nil =>
        rw [ht] at hc
        have : c = '.' := by simpa using hc.symm
        subst this
        decide
      | cons d ds =>
        have hne : (trimSpace ext).data ≠ [] := by rw [ht]; simp
        rw [List.getLast?_append_of_ne_nil _ hne] at hc
        exact hends.2 c hc
  refine ⟨hhead, hfirst, hlast, ?_⟩
  have htrim : trimSpace (normalizeExt ext) = normalizeExt ext :=
    trimSpace_of_ends _ hfirst hlast
  have hdot : hasDotPrefix (normalizeExt ext) = true := (hasDotPrefix_iff _).2 hhead
  exact normalizeExt_of_normal _ htrim hdot

/-! ## `formatSize` -/

/-- Invariant of the loop of `formatSize`: when `n` is `bytes` divided by
`div` (rounded down), at least 1, and `div` is `1024^(exp+1)`, the loop ends
with `div = 1024^(e+1)` for the final `exp = e`, no multiplication leaves
the `int64` range, and `div ≤ bytes < 1024 × div`. -/
theorem formatLoop_spec (bytes : Int) (hhi : bytes < 2 ^ 63) (n div : Int) (exp : Nat)
    (hn : 1 ≤ n) (hdiv : div = 1024 ^ (exp + 1)) (hle : div * n ≤ bytes)
    (hlt : bytes < div * (n + 1)) :
    ∃ e : Nat, formatLoop n div exp = ((1024 : Int) ^ (e + 1), e) ∧
      (1024 : Int) ^ (e + 1) ≤ bytes ∧ bytes < 1024 * 1024 ^ (e + 1) := by
  induction n, div, exp using formatLoop.induct with
  | case1 n div exp h ih =>
    have hpos : 0 < div := by rw [hdiv]; positivity
    have hq : n.tdiv 1024 = n / 1024 := Int.tdiv_eq_ediv (by omega) (by omega)
    have hq1 : 1024 * (n / 1024) ≤ n := by omega
    have hq2 : n + 1 ≤ 1024 * (n / 1024 + 1) := by omega
    have hq3 : 1 ≤ n / 1024 := by omega
    have hmul : div * 1024 ≤ bytes := by nlinarith
    have hwrap : wrapInt64 (div * 1024) = div * 1024 :=
      wrapInt64_of_range _ (by nlinarith) (by omega)
    rw [formatLoop, if_pos h]
    rw [hwrap, hq] at ih ⊢
    apply ih hq3
    · rw [hdiv]; ring
    · have := mul_le_mul_of_nonneg_left hq1 (le_of_lt hpos)
      nlinarith
    · have := mul_le_mul_of_nonneg_left hq2 (le_of_lt hpos)
      nlinarith
  | case2 n div exp h =>
    have hpos : 0 < div := by rw [hdiv]; positivity
    refine ⟨exp, ?_, ?_, ?_⟩
    · rw [formatLoop, if_neg h, hdiv]
    · rw [← hdiv]; nlinarith
    · rw [← hdiv]
      have : n + 1 ≤ 1024 := by omega
      have := mul_le_mul_of_nonneg_left this (le_of_lt hpos)
      nlinarith

/-- C17: for every `int64` value `bytes ≥ 1024` the loop of `formatSize`
ends with `exp ≤ 5`, so `"KMGTPE"[exp]` is in bounds and `formatSize` returns
normally; `div` is `1024^(exp+1)`, below 2^63 (no multiplication overflows),
and `div ≤ bytes < 1024 × div`. For every `bytes < 1024`, negative values
included, the loop is not entered and the plain byte count is returned. -/
theorem C17_formatSize_unit_in_bounds (bytes : Int) (hlo : -(2 ^ 63) ≤ bytes)
    (hhi : bytes < 2 ^ 63) :
    (bytes < 1024 → formatSize bytes = some (SizeText.plain bytes)) ∧
    (1024 ≤ bytes →
      ∃ exp : Nat, exp ≤ 5 ∧
        formatLoop (bytes.tdiv 1024) 1024 0 = ((1024 : Int) ^ (exp + 1), exp) ∧
        (1024 : Int) ^ (exp + 1) < 2 ^ 63 ∧
        (1024 : Int) ^ (exp + 1) ≤ bytes ∧ bytes < 1024 * 1024 ^ (exp + 1) ∧
        ∃ unit, "KMGTPE".data.get? exp = some unit ∧
          formatSize bytes = some (SizeText.scaled bytes (1024 ^ (exp + 1)) unit)) := by
  constructor
  · intro h
    simp [formatSize, h]
  · intro h
    have hq : bytes.tdiv 1024 = bytes / 1024 := Int.tdiv_eq_ediv (by omega) (by omega)
    obtain ⟨e, hloop, h1, h2⟩ := formatLoop_spec bytes hhi (bytes.tdiv 1024) 1024 0
      (by rw [hq]; omega) (by norm_num) (by rw [hq]; omega) (by rw [hq]; omega)
    have he : e ≤ 5 := by
      by_contra hcon
      have h7 : 7 ≤ e + 1 := by omega
      have hpow : (1024 : Int) ^ 7 ≤ 1024 ^ (e + 1) :=
        pow_le_pow_right₀ (by norm_num) h7
      have : (2 : Int) ^ 63 < 1024 ^ 7 := by norm_num
      omega
    have hunit : ∃ unit, "KMGTPE".data.get? e = some unit := by
      interval_cases e <;> exact ⟨_, rfl⟩
    obtain ⟨unit, hunit⟩ := hunit
    refine ⟨e, he, hloop, by omega, h1, h2, unit, hunit, ?_⟩
    unfold formatSize
    rw [if_neg (by omega), hloop]
    simp only [hunit]

/-- C17 at 1536 bytes and at 1023 bytes: `1.5 KB` (divisor 1024, unit `K`)
and the plain `1023 B`. -/
theorem C17_formatSize_unit_in_bounds_witness :
    (-(2 ^ 63) ≤ (1536 : Int) ∧ (1536 : Int) < 2 ^ 63) ∧
    formatSize 1536 = some (SizeText.scaled 1536 1024 'K') ∧
    formatSize 1023 = some (SizeText.plain 1023) := by
  refine ⟨⟨by decide, by decide⟩, ?_, ?_⟩
  · obtain ⟨exp, he, _, _, h1, _, unit, hunit, hfmt⟩ :=
      (C17_formatSize_unit_in_bounds 1536 (by decide) (by decide)).2 (by decide)
    have h0 : exp = 0 := by
      interval_cases exp
      · rfl
      all_goals norm_num at h1
    subst h0
    have hK : unit = 'K' := by
      have : "KMGTPE".data.get? 0 = some 'K' := rfl
      rw [this] at hunit
      exact (Option.some.inj hunit).symm
    rw [hfmt, hK]
    norm_num
  · exact (C17_formatSize_unit_in_bounds 1023 (by decide) (by decide)).1 (by decide)

end DupFinder

namespace TaskApi

/-! ## The task store -/

theorem mem_store {m : List (Int × Task)} {id k : Int} {task t : Task}
    (h : (k, t) ∈ store m id task) : (k = id ∧ t = task) ∨ (k, t) ∈ m := by
  induction m with
  | nil =>
    simp only [store, List.mem_singleton, Prod.mk.injEq] at h
    exact Or.inl h
  | cons p m ih =>
    obtain ⟨a, b⟩ := p
    unfold store at h
    split at h
    · rename_i hak
      rcases List.mem_cons.1 h with h | h
      · simp only [Prod.mk.injEq] at h
        exact Or.inl ⟨h.1.trans hak, h.2⟩
      · exact Or.inr (List.mem_cons_of_mem _ h)
    · rcases List.mem_cons.1 h with h | h
      · exact Or.inr (h ▸ List.mem_cons_self _ _)
      · rcases ih h with h | h
        · exact Or.inl h
        · exact Or.inr (List.mem_cons_of_mem _ h)

theorem mem_store_of_ne {m : List (Int × Task)} {id k : Int} {task t : Task}
    (h : (k, t) ∈ m) (hne : k ≠ id) : (k, t) ∈ store m id task := by
  induction m with
  | nil => cases h
  | cons p m ih =>
    obtain ⟨a, b⟩ := p
    unfold store
    split
    · rename_i hak
      rcases List.mem_cons.1 h with h | h
      · simp only [Prod.mk.injEq] at h
        exact absurd (h.1.trans hak) hne
      · exact List.mem_cons_of_mem _ h
    · rcases List.mem_cons.1 h with h | h
      · exact h ▸ List.mem_cons_self _ _
      · exact List.mem_cons_of_mem _ (ih h)

theorem mem_remove {m : List (Int × Task)} {id k : Int} {t : Task}
    (h : (k, t) ∈ remove m id) : (k, t) ∈ m := by
  induction m with
  | nil => simp [remove] at h
  | cons p m ih =>
    obtain ⟨a, b⟩ := p
    unfold remove at h
    split at h
    · exact List.mem_cons_of_mem _ h
    · rcases List.mem_cons.1 h with h | h
      · exact h ▸ List.mem_cons_self _ _
      · exact List.mem_cons_of_mem _ (ih h)

theorem lookup_mem {m : List (Int × Task)} {id : Int} {t : Task}
    (h : lookup m id = some t) : (id, t) ∈ m := by
  induction m with
  | nil => simp [lookup] at h
  | cons p m ih =>
    obtain ⟨a, b⟩ := p
    unfold lookup at h
    split at h
    · rename_i hak
      simp only [Option.some.injEq] at h
      rw [← hak, ← h]
      exact List.mem_cons_self _ _
    · exact List.mem_cons_of_mem _ (ih h)

theorem applyUpdate_ID (task : Task) (req : UpdateTaskRequest) (now : Int) :
    (applyUpdate task req now).ID = task.ID := by
  unfold applyUpdate
  cases req.Title <;> cases req.Description <;> cases req.Status <;> cases req.Priority <;>
    simp only <;> split_ifs <;> rfl

theorem storeInv_new : StoreInv NewTaskStore 0 := by
  refine ⟨rfl, ?_⟩
  intro k t h
  cases h

/-- One call keeps the invariant, as long as `nextID` stays in the range of
`int`. -/
theorem storeInv_step (ts : TaskStore) (created : Nat) (c : Call)
    (hinv : StoreInv ts created)
    (hbound : ((created + numCreates [c] : Nat) : Int) < 2 ^ 63 - 1) :
    StoreInv (step ts c) (created + numCreates [c]) := by
  obtain ⟨hnext, htasks⟩ := hinv
  cases c with
  | create req now =>
    simp only [numCreates] at hbound ⊢
    have hw : DupFinder.wrapInt64 (ts.nextID + 1) = ts.nextID + 1 := by
      apply DupFinder.wrapInt64_of_range
      · rw [hnext]; omega
      · rw [hnext]; push_cast at hbound; omega
    refine ⟨?_, ?_⟩
    · simp only [step, TaskStore.CreateTask, hw]
      rw [hnext]
      push_cast
      ring
    · intro k t h
      simp only [step, TaskStore.CreateTask, hw] at h ⊢
      rcases mem_store h with ⟨hk, ht⟩ | h
      · subst hk ht
        refine ⟨rfl, ?_, ?_⟩
        · rw [hnext]; omega
        · omega
      · obtain ⟨h1, h2, h3⟩ := htasks k t h
        exact ⟨h1, h2, by omega⟩
  | update id req now =>
    simp only [numCreates, Nat.add_zero] at hbound ⊢
    cases hlook : lookup ts.tasks id with
    | none =>
      simp only [step, TaskStore.UpdateTask, hlook]
      exact ⟨hnext, htasks⟩
    | some task =>
      simp only [step, TaskStore.UpdateTask, hlook]
      refine ⟨hnext, ?_⟩
      intro k t h
      have hold := htasks id task (lookup_mem hlook)
      rcases mem_store h with ⟨hk, ht⟩ | h
      · subst hk ht
        rw [applyUpdate_ID]
        exact hold
      · exact htasks k t h
  | delete id =>
    simp only [numCreates, Nat.add_zero] at hbound ⊢
    cases hlook : lookup ts.tasks id with
    | none =>
      simp only [step, TaskStore.DeleteTask, hlook]
      exact ⟨hnext, htasks⟩
    | some task =>
      simp only [step, TaskStore.DeleteTask, hlook]
      exact ⟨hnext, fun k t h => htasks k t (mem_remove h)⟩

theorem numCreates_cons (c : Call) (rest : List Call) :
    numCreates (c :: rest) = numCreates [c] + numCreates rest := by
  cases c <;> simp [numCreates, Nat.add_comm]

theorem numCreates_append (a b : List Call) :
    numCreates (a ++ b) = numCreates a + numCreates b := by
  induction a with
  | nil => simp [numCreates]
  | cons c rest ih =>
    rw [List.cons_append, numCreates_cons, ih, numCreates_cons c rest, Nat.add_assoc]

theorem run_append (a b : List Call) (ts : TaskStore) :
    run (a ++ b) ts = run b (run a ts) := by
  induction a generalizing ts with
  | nil => rfl
  | cons c rest ih => simp [run, ih]

/-- A sequence of calls keeps the invariant, as long as `nextID` stays in
the range of `int`; the IDs returned by its `CreateTask` calls are the
consecutive numbers from the `nextID` of the start. -/
theorem storeInv_run (calls : List Call) (ts : TaskStore) (created : Nat)
    (hinv : StoreInv ts created)
    (hbound : ((created + numCreates calls : Nat) : Int) < 2 ^ 63 - 1) :
    StoreInv (run calls ts) (created + numCreates calls) ∧
    createdIDs calls ts =
      (List.range (numCreates calls)).map (fun i : Nat => 1 + (created : Int) + (i : Int)) := by
  induction calls generalizing ts created with
  | nil =>
    simp only [numCreates, Nat.add_zero, run, createdIDs, List.range_zero, List.map_nil,
      and_true]
    exact hinv
  | cons c rest ih =>
    rw [numCreates_cons] at hbound ⊢
    have hb1 : ((created + numCreates [c] : Nat) : Int) < 2 ^ 63 - 1 := by
      push_cast at hbound ⊢
      omega
    have hstep := storeInv_step ts created c hinv hb1
    have hrest := ih (step ts c) (created + numCreates [c]) hstep
      (by rw [Nat.add_assoc]; exact hbound)
    rw [← Nat.add_assoc]
    refine ⟨hrest.1, ?_⟩
    cases c with
    | create req now =>
      simp only [createdIDs, numCreates, TaskStore.CreateTask] at hrest ⊢
      rw [hrest.2, hinv.1, Nat.add_comm 1, List.range_succ_eq_map, List.map_cons, List.map_map]
      simp only [Nat.cast_zero, Int.add_zero, List.cons.injEq, true_and]
      apply List.map_congr_left
      intro i _
      simp only [Function.comp, Nat.succ_eq_add_one]
      push_cast
      ring
    | update id req now =>
      simp only [createdIDs, numCreates, Nat.add_zero, Nat.zero_add] at hrest ⊢
      exact hrest.2
    | delete id =>
      simp only [createdIDs, numCreates, Nat.add_zero, Nat.zero_add] at hrest ⊢
      exact hrest.2

theorem numCreates_createDelete (count : Nat) : numCreates (createDelete count) = count := by
  induction count with
  | zero => rfl
  | succ count ih =>
    rw [createDelete, numCreates_append, ih]
    rfl

/-- Creating a task and deleting it again, `count` times, leaves an empty
store whose `nextID` is `1 + count`. -/
theorem run_createDelete (count : Nat) (hcount : (count : Int) ≤ 2 ^ 63 - 2) :
    run (createDelete count) NewTaskStore = { tasks := [], nextID := 1 + (count : Int) } := by
  induction count with
  | zero => rfl
  | succ count ih =>
    have hw : DupFinder.wrapInt64 (1 + (count : Int) + 1) = 1 + (count : Int) + 1 := by
      apply DupFinder.wrapInt64_of_range
      · omega
      · push_cast at hcount; omega
    rw [createDelete, run_append, ih (by push_cast at hcount ⊢; omega)]
    simp only [run, step, TaskStore.CreateTask, TaskStore.DeleteTask, store, lookup, remove,
      if_true, hw]
    congr 1

/-- C18 fails as stated: after 2^63 - 1 calls of `CreateTask` (all tasks but
the last deleted again) `nextID++` has wrapped around to -2^63 while the
task with ID 2^63 - 1 is stored, so a stored ID does not lie below `nextID`,
and the next `CreateTask` returns -2^63, less than the ID returned before. -/
theorem C18_nextID_wraps_around :
    numCreates overflowCalls = 2 ^ 63 - 1 ∧
    (run overflowCalls NewTaskStore).nextID = -(2 ^ 63) ∧
    (∃ t, (2 ^ 63 - 1, t) ∈ (run overflowCalls NewTaskStore).tasks ∧ t.ID = 2 ^ 63 - 1) ∧
    ¬ (∀ k t, (k, t) ∈ (run overflowCalls NewTaskStore).tasks →
        t.ID = k ∧ 1 ≤ k ∧ k < (run overflowCalls NewTaskStore).nextID) ∧
    ((run overflowCalls NewTaskStore).CreateTask sampleRequest 0).1.ID = -(2 ^ 63) := by
  have hrun : run overflowCalls NewTaskStore =
      { tasks := [(2 ^ 63 - 1,
          { ID := 2 ^ 63 - 1, Title := "task", Description := "", Status := "pending",
            Priority := "low", CreatedAt := 0, UpdatedAt := 0 })],
        nextID := -(2 ^ 63) } := by
    rw [overflowCalls, run_append, run_createDelete _ (by norm_num)]
    simp only [run, step, TaskStore.CreateTask, store]
    have h1 : (1 : Int) + ((2 ^ 63 - 2 : Nat) : Int) = 2 ^ 63 - 1 := by norm_num
    rw [h1]
    have h2 : DupFinder.wrapInt64 (2 ^ 63 - 1 + 1) = -(2 ^ 63) := by decide
    rw [h2]
    rfl
  refine ⟨?_, ?_, ?_, ?_, ?_⟩
  · rw [overflowCalls, numCreates_append, numCreates_createDelete]
    rfl
  · rw [hrun]
  · rw [hrun]
    exact ⟨_, List.mem_singleton_self _, rfl⟩
  · rw [hrun]
    intro h
    have := (h _ _ (List.mem_singleton_self _)).2.2
    norm_num at this
  · rw [hrun]
    rfl

/-- C18 (amended): in every state reached from `NewTaskStore` by calls of
`CreateTask`, `UpdateTask` and `DeleteTask` with fewer than 2^63 - 1 calls
of `CreateTask` among them, every stored task has its map key as `ID`, in
`[1, nextID)`, and `nextID` is one more than the number of tasks created;
the IDs returned so far are 1, 2, 3, … in this order. Hence a further
`CreateTask` returns `nextID`, which is the key of no stored task (every
stored entry remains), is greater than every ID returned before, and is
greater than the key of every task stored at any earlier time, deleted or
not. -/
theorem C18_ids_fresh_while_nextID_in_range (calls : List Call)
    (hbound : (numCreates calls : Int) < 2 ^ 63 - 1) :
    (∀ k t, (k, t) ∈ (run calls NewTaskStore).tasks →
      t.ID = k ∧ 1 ≤ k ∧ k < (run calls NewTaskStore).nextID) ∧
    (run calls NewTaskStore).nextID = 1 + (numCreates calls : Int) ∧
    createdIDs calls NewTaskStore =
      (List.range (numCreates calls)).map (fun i : Nat => (i : Int) + 1) ∧
    ∀ (req : CreateTaskRequest) (now : Int),
      ((run calls NewTaskStore).CreateTask req now).1.ID = (run calls NewTaskStore).nextID ∧
      (∀ k t, (k, t) ∈ (run calls NewTaskStore).tasks →
        k ≠ ((run calls NewTaskStore).CreateTask req now).1.ID ∧
        (k, t) ∈ ((run calls NewTaskStore).CreateTask req now).2.tasks) ∧
      (∀ id ∈ createdIDs calls NewTaskStore,
        id < ((run calls NewTaskStore).CreateTask req now).1.ID) ∧
      (∀ earlier later, calls = earlier ++ later →
        ∀ k t, (k, t) ∈ (run earlier NewTaskStore).tasks →
          k < ((run calls NewTaskStore).CreateTask req now).1.ID) := by
  have hmain := storeInv_run calls NewTaskStore 0 storeInv_new
    (by rw [Nat.zero_add]; exact hbound)
  rw [Nat.zero_add] at hmain
  obtain ⟨⟨hnext, htasks⟩, hids⟩ := hmain
  have hids' : createdIDs calls NewTaskStore =
      (List.range (numCreates calls)).map (fun i : Nat => (i : Int) + 1) := by
    rw [hids]
    apply List.map_congr_left
    intro i _
    push_cast
    ring
  refine ⟨htasks, hnext, hids', ?_⟩
  intro req now
  have hid : ((run calls NewTaskStore).CreateTask req now).1.ID =
      (run calls NewTaskStore).nextID := rfl
  refine ⟨hid, ?_, ?_, ?_⟩
  · intro k t h
    have hk := (htasks k t h).2.2
    have hne : k ≠ (run calls NewTaskStore).nextID := by omega
    exact ⟨by rw [hid]; exact hne, mem_store_of_ne h hne⟩
  · intro id hmem
    rw [hids', List.mem_map] at hmem
    obtain ⟨i, hi, rfl⟩ := hmem
    rw [List.mem_range] at hi
    rw [hid, hnext]
    omega
  · intro earlier later hsplit k t h
    have hle : numCreates earlier ≤ numCreates calls := by
      rw [hsplit, numCreates_append]
      exact Nat.le_add_right _ _
    have hearlier := storeInv_run earlier NewTaskStore 0 storeInv_new
      (by rw [Nat.zero_add]; omega)
    rw [Nat.zero_add] at hearlier
    have hk := (hearlier.1.2 k t h).2.2
    rw [hearlier.1.1] at hk
    rw [hid, hnext]
    omega

/-- C18 (amended) on a short call sequence: three tasks created with the IDs
1, 2, 3, the first deleted; the tasks 2 and 3 are stored, `nextID` is 4, and
the next task gets the ID 4. -/
theorem C18_ids_fresh_while_nextID_in_range_witness :
    (numCreates sampleCalls : Int) < 2 ^ 63 - 1 ∧
    createdIDs sampleCalls NewTaskStore = [1, 2, 3] ∧
    (run sampleCalls NewTaskStore).tasks.map (fun p => (p.1, p.2.ID)) = [(2, 2), (3, 3)] ∧
    (run sampleCalls NewTaskStore).nextID = 4 ∧
    ((run sampleCalls NewTaskStore).CreateTask sampleRequest 5).1.ID = 4 := by
  have h := C18_ids_fresh_while_nextID_in_range sampleCalls (by decide)
  refine ⟨by decide, h.2.2.1.trans (by decide), by decide, h.2.1.trans (by decide), ?_⟩
  exact ((h.2.2.2 sampleRequest 5).1).trans (h.2.1.trans (by decide))

end TaskApi
